import Mathlib

/-!
Verification of the translation core of `rustc-ja-wrapper` (src/main.rs).

The program pipes a compiler's JSON-per-line stderr through a phrase-table
translator.  This file gives a shallow embedding of:

  * the Rust string primitives the source uses (`str::replace`,
    `str::lines`, `str::from_utf8`, `String::len` in UTF-8 bytes);
  * the template compiler embedded in `translate_message` (the regex
    `\{\$(\w+)\}` over the source template, literal escaping, named
    lazy capture groups `(?P<name>.+?)`, and the trailing `(.*)$` group);
  * `translate_message` itself (first-match scan over the table);
  * the phrase-table construction of `TRANSLATE_LIST` (stable sort by
    descending byte length of `en`);
  * a model of `serde_json::Value` with parser and serializer, and on top
    of it `translate_json_message`, `convert_json_error_line` and
    `convert_json_error_format`.

Matching semantics notes (regex crate, as used by the source):
  * patterns are anchored with `^ ... (.*)$`, multi-line mode off, so `.`
    matches any character except `'\n'` and `$` is end of haystack;
  * `(?P<name>.+?)` is a lazy non-empty capture: backtracking prefers the
    shortest capture for earlier groups first (leftmost-first semantics);
  * compiling a pattern with a duplicate capture-group name, or a group
    name starting with a digit, is an error (`GroupNameDuplicate` /
    `GroupNameInvalid`), which the source skips with `continue`;
  * `\w` is Unicode-aware in the regex crate; placeholder names in the
    data are ASCII identifiers, and we model `\w` as ASCII alphanumerics
    plus underscore.
-/

namespace RustcJa

/-- The two brace characters, written via code points throughout. -/
def lbrace : Char := Char.ofNat 123

/-- Closing brace character. -/
def rbrace : Char := Char.ofNat 125

/-! ## Rust string primitives -/

/-- `str::replace` with an empty pattern inserts the replacement at every
character boundary (Rust's empty-pattern semantics). -/
def replEmptyPat (rep : List Char) (l : List Char) : List Char :=
  rep ++ l.flatMap (fun c => c :: rep)

/-- Fuelled core of `str::replace`: replace leftmost non-overlapping
occurrences of `pat` (non-empty) by `rep`, scanning left to right.
With `fuel ≥ length of the input` this is total on the whole input. -/
def replChars (pat rep : List Char) : Nat → List Char → List Char
  | _, [] => []
  | 0, l => l
  | fuel+1, c :: cs =>
    if pat.isPrefixOf (c :: cs) then rep ++ replChars pat rep fuel ((c :: cs).drop pat.length)
    else c :: replChars pat rep fuel cs

/-- Model of Rust `str::replace` (all occurrences, leftmost,
non-overlapping, literal — not a regex operation). -/
def rustReplace (s pat rep : String) : String :=
  if pat.data = [] then String.mk (replEmptyPat rep.data s.data)
  else String.mk (replChars pat.data rep.data s.data.length s.data)

/-- Leftmost non-overlapping split on `pat`; `replChars` is `intercalate`
of the replacement over this split (proved below). -/
def splitChars (pat : List Char) : Nat → List Char → List (List Char)
  | _, [] => [[]]
  | 0, l => [l]
  | fuel+1, c :: cs =>
    if pat.isPrefixOf (c :: cs) then [] :: splitChars pat fuel ((c :: cs).drop pat.length)
    else
      match splitChars pat fuel cs with
      | [] => [[c]]
      | p :: ps => (c :: p) :: ps

/-- Drop one trailing carriage return (for `str::lines`, which strips a
`\r` only when it directly precedes the `\n` terminator). -/
def stripTrailingCR (s : List Char) : List Char :=
  if s.getLast? = some (Char.ofNat 13) then s.dropLast else s

/-- Model of Rust `str::lines`: split at `\n` terminators, strip `\r`
before each terminator, and do not emit a final empty line when the text
ends with a terminator.  A trailing `\r` not followed by `\n` stays. -/
def rustLines (s : String) : List String :=
  let ps := s.data.splitOn '\n'
  let leading := (ps.dropLast.map stripTrailingCR).map String.mk
  match ps.getLast? with
  | none => leading
  | some last => if last = [] then leading else leading ++ [String.mk last]

/-- Rust `String::len`: the UTF-8 byte length of a string. -/
def byteLen (s : String) : Nat := (s.data.map (fun c => c.utf8Size)).sum

/-! ## UTF-8 (model of `std::str::from_utf8`) -/

/-- Fuelled strict UTF-8 decoder, rejecting overlong encodings, surrogate
code points and values above `0x10FFFF` — exactly the byte-range table
Rust's `str::from_utf8` validates. -/
def utf8DecodeAux : Nat → List UInt8 → Option (List Char)
  | _, [] => some []
  | 0, _ => none
  | fuel+1, b0 :: rest =>
    let n0 := b0.toNat
    if n0 < 0x80 then (utf8DecodeAux fuel rest).map (fun cs => Char.ofNat n0 :: cs)
    else if 0xC2 ≤ n0 ∧ n0 ≤ 0xDF then
      match rest with
      | b1 :: rest1 =>
        let n1 := b1.toNat
        if 0x80 ≤ n1 ∧ n1 < 0xC0 then
          (utf8DecodeAux fuel rest1).map
            (fun cs => Char.ofNat ((n0 - 0xC0) * 0x40 + (n1 - 0x80)) :: cs)
        else none
      | [] => none
    else if 0xE0 ≤ n0 ∧ n0 ≤ 0xEF then
      match rest with
      | b1 :: b2 :: rest2 =>
        let n1 := b1.toNat
        let n2 := b2.toNat
        let lo1 := if n0 = 0xE0 then 0xA0 else 0x80
        let hi1 := if n0 = 0xED then 0x9F else 0xBF
        if lo1 ≤ n1 ∧ n1 ≤ hi1 ∧ 0x80 ≤ n2 ∧ n2 < 0xC0 then
          (utf8DecodeAux fuel rest2).map
            (fun cs => Char.ofNat ((n0 - 0xE0) * 0x1000 + (n1 - 0x80) * 0x40 + (n2 - 0x80)) :: cs)
        else none
      | _ => none
    else if 0xF0 ≤ n0 ∧ n0 ≤ 0xF4 then
      match rest with
      | b1 :: b2 :: b3 :: rest3 =>
        let n1 := b1.toNat
        let n2 := b2.toNat
        let n3 := b3.toNat
        let lo1 := if n0 = 0xF0 then 0x90 else 0x80
        let hi1 := if n0 = 0xF4 then 0x8F else 0xBF
        if lo1 ≤ n1 ∧ n1 ≤ hi1 ∧ 0x80 ≤ n2 ∧ n2 < 0xC0 ∧ 0x80 ≤ n3 ∧ n3 < 0xC0 then
          (utf8DecodeAux fuel rest3).map
            (fun cs =>
              Char.ofNat ((n0 - 0xF0) * 0x40000 + (n1 - 0x80) * 0x1000
                + (n2 - 0x80) * 0x40 + (n3 - 0x80)) :: cs)
        else none
      | _ => none
    else none

/-- Model of `std::str::from_utf8` on a byte buffer. -/
def utf8Decode (l : List UInt8) : Option (List Char) := utf8DecodeAux l.length l

/-- Standard UTF-8 encoding of one scalar value. -/
def utf8EncodeChar (c : Char) : List UInt8 :=
  let n := c.toNat
  if n < 0x80 then [UInt8.ofNat n]
  else if n < 0x800 then
    [UInt8.ofNat (0xC0 + n / 0x40), UInt8.ofNat (0x80 + n % 0x40)]
  else if n < 0x10000 then
    [UInt8.ofNat (0xE0 + n / 0x1000), UInt8.ofNat (0x80 + (n / 0x40) % 0x40),
     UInt8.ofNat (0x80 + n % 0x40)]
  else
    [UInt8.ofNat (0xF0 + n / 0x40000), UInt8.ofNat (0x80 + (n / 0x1000) % 0x40),
     UInt8.ofNat (0x80 + (n / 0x40) % 0x40), UInt8.ofNat (0x80 + n % 0x40)]

/-- `String::into_bytes`: UTF-8 encoding of a character sequence. -/
def utf8Encode (cs : List Char) : List UInt8 := cs.flatMap utf8EncodeChar

/-! ## Translation data (`TranslateEntry`, `TRANSLATE_LIST`) -/

/-- One phrase pair, as deserialized from the translation data file. -/
structure TranslateEntry where
  en : String
  ja : String
  deriving DecidableEq

/-- Construction of `TRANSLATE_LIST`: a stable sort of the entries by
descending `en.len()` — Rust `String::len`, i.e. UTF-8 byte length.
Rust's `sort_by` is a stable sort, so any stable sort models it; we use
`List.mergeSort`. -/
def sortTranslateList (entries : List TranslateEntry) : List TranslateEntry :=
  entries.mergeSort (fun a b => byteLen b.en ≤ byteLen a.en)

/-! ## Template compiler (the regex built inside `translate_message`)

`translate_message` scans the source template with `\{\$(\w+)\}`, escapes
the literal stretches, turns each placeholder into `(?P<name>.+?)` and
wraps everything as `^ ... (.*)$`.  We compile the template directly into
an alternating list of (literal, placeholder-name) segments plus the final
literal tail; the regex scan for placeholder tokens is reproduced by a
character-level state machine. -/

/-- `\w` of the regex crate, restricted to ASCII (see header note). -/
def isWordChar (c : Char) : Bool := c.isAlphanum || c = '_'

/-- Scanner state: in plain text / just after `{` / inside `{$name`. -/
inductive TkState where
  | normal : TkState
  | afterBrace : TkState
  | inPh (name : List Char) : TkState

/-- Literal characters consumed by an unfinished placeholder start. -/
def tkPending : TkState → List Char
  | .normal => []
  | .afterBrace => [lbrace]
  | .inPh name => lbrace :: '$' :: name

/-- Character-level scan for placeholder tokens `\{\$(\w+)\}`, leftmost,
non-overlapping — the `captures_iter` loop of the source.  Accumulates
(literal-before, name) segments and the trailing literal. -/
def tokAux (st : TkState) (segs : List (List Char × String)) (lit : List Char) :
    List Char → List (List Char × String) × List Char
  | [] => (segs, lit ++ tkPending st)
  | c :: rest =>
    match st with
    | .normal =>
      if c = lbrace then tokAux .afterBrace segs lit rest
      else tokAux .normal segs (lit ++ [c]) rest
    | .afterBrace =>
      if c = '$' then tokAux (.inPh []) segs lit rest
      else if c = lbrace then tokAux .afterBrace segs (lit ++ [lbrace]) rest
      else tokAux .normal segs (lit ++ [lbrace, c]) rest
    | .inPh name =>
      if isWordChar c then tokAux (.inPh (name ++ [c])) segs lit rest
      else if c = rbrace ∧ name ≠ [] then tokAux .normal (segs ++ [(lit, String.mk name)]) [] rest
      else if c = lbrace then tokAux .afterBrace segs (lit ++ lbrace :: '$' :: name) rest
      else tokAux .normal segs (lit ++ lbrace :: '$' :: name ++ [c]) rest

/-- Split a source template into placeholder segments and trailing literal. -/
def tokenizeTemplate (l : List Char) : List (List Char × String) × List Char :=
  tokAux .normal [] [] l

/-- A compiled source template: the regex `^ lit₀ (?P<n₁>.+?) lit₁ …
(?P<nₖ>.+?) tail (.*)$` is represented by its segments and tail. -/
structure CompiledTemplate where
  segs : List (List Char × String)
  tail : List Char
  deriving DecidableEq

/-- Validity of a regex capture-group name: non-empty and not starting
with a digit (the regex crate rejects `(?P<0…>`). -/
def validGroupName (n : String) : Bool :=
  match n.data with
  | [] => false
  | c :: _ => !c.isDigit

/-- Compiling one table entry's source template.  `Regex::new` fails —
and the source `continue`s to the next entry — exactly when a capture
name is duplicated or invalid. -/
def compileEntry (e : TranslateEntry) : Option CompiledTemplate :=
  let t := tokenizeTemplate e.en.data
  if (t.1.map (fun sg => sg.2)).Nodup ∧ (∀ n ∈ t.1.map (fun sg => sg.2), validGroupName n = true)
  then some ⟨t.1, t.2⟩ else none

/-- Matching `^ lit₀ (?P<n₁>.+?) … tail (.*)$` against the input, with the
regex crate's leftmost-first preference: each lazy group takes the
shortest viable capture, earlier groups first; `.` never matches `'\n'`;
the final `(.*)` group (the returned remainder) runs to end of haystack.
Returns the captures in group order and the remainder. -/
def matchSegs (tail : List Char) : List (List Char × String) → List Char →
    Option (List (String × String) × List Char)
  | [], input =>
    if tail.isPrefixOf input then
      let rem := input.drop tail.length
      if rem.all (fun c => c ≠ '\n') then some ([], rem) else none
    else none
  | (lit, nm) :: segs, input =>
    if lit.isPrefixOf input then
      let rest := input.drop lit.length
      (List.range rest.length).findSome? (fun k =>
        let cap := rest.take (k+1)
        if cap.all (fun c => c ≠ '\n') then
          (matchSegs tail segs (rest.drop (k+1))).map
            (fun pr => ((nm, String.mk cap) :: pr.1, pr.2))
        else none)
    else none

/-- The literal text of a placeholder token for `name`. -/
def phToken (n : String) : String := "\x7b$" ++ n ++ "\x7d"

/-- The substitution loop over `re.capture_names()`: for each capture
name in group order (skipping the names `""`, `"0"`, `"1"` exactly as the
source does), replace every occurrence of its token in the target
template by the captured value. -/
def substituteCaps (ja : String) (caps : List (String × String)) : String :=
  caps.foldl
    (fun result p =>
      if p.1 = "" ∨ p.1 = "0" ∨ p.1 = "1" then result
      else rustReplace result (phToken p.1) p.2)
    ja

/-- One iteration of `translate_message`'s entry loop: compile the
entry's template (`Err → continue` is `none`), try the anchored match,
and on success substitute into the target and append the remainder. -/
def applyEntry (msg : String) (e : TranslateEntry) : Option String :=
  match compileEntry e with
  | none => none
  | some ct =>
    match matchSegs ct.tail ct.segs msg.data with
    | none => none
    | some (caps, rem) => some (substituteCaps e.ja caps ++ String.mk rem)

/-- `translate_message`: first entry (in table order) whose compiled
template matches wins; if none matches the message is returned unchanged. -/
def translate_message (message : String) (translations : List TranslateEntry) : String :=
  match translations.findSome? (applyEntry message) with
  | some r => r
  | none => message

end RustcJa

namespace RustcJa

/-! ## JSON value model (`serde_json::Value`)

Numbers are modelled as integers (the diagnostic format only carries
integer offsets/line numbers; floating point is out of scope).  Objects
are insertion-ordered association lists; `serde_json` maps deduplicate
keys, which never matters below because no modelled document repeats a
key.  Mutual (rather than nested) inductives keep all recursion
structural and kernel-computable. -/

mutual
inductive Json where
  | null : Json
  | bool (b : Bool) : Json
  | num (n : Int) : Json
  | str (s : String) : Json
  | arr (elems : JsonList) : Json
  | obj (fields : JsonFields) : Json
inductive JsonList where
  | nil : JsonList
  | cons (hd : Json) (tl : JsonList) : JsonList
inductive JsonFields where
  | nil : JsonFields
  | cons (key : String) (val : Json) (tl : JsonFields) : JsonFields
end

/-- Build an object from a list of pairs (for concrete records). -/
def jFields : List (String × Json) → JsonFields
  | [] => .nil
  | (k, v) :: tl => .cons k v (jFields tl)

/-- Build an array from a list (for concrete records). -/
def jList : List Json → JsonList
  | [] => .nil
  | v :: tl => .cons v (jList tl)

/-- First binding of `key` in an association list of fields. -/
def getKey : JsonFields → String → Option Json
  | .nil, _ => none
  | .cons k v tl, key => if k = key then some v else getKey tl key

/-- Replace the value at `key` in place, appending when absent
(`serde_json` map insertion). -/
def setKey : JsonFields → String → Json → JsonFields
  | .nil, key, v => .cons key v .nil
  | .cons k w tl, key, v => if k = key then .cons k v tl else .cons k w (setKey tl key v)

/-- `Value::get` on an object key: `None` on non-objects. -/
def Json.get : Json → String → Option Json
  | .obj fs, key => getKey fs key
  | _, _ => none

/-- `value.get(key).and_then(|v| v.as_str())`. -/
def Json.getStr (j : Json) (key : String) : Option String :=
  match j.get key with
  | some (.str s) => some s
  | _ => none

/-- `value[key] = v` on an object.  (On other values `serde_json` panics;
every call site in the source first checks `get` succeeded, so the
non-object branch is unreachable there and modelled as the identity.) -/
def Json.set : Json → String → Json → Json
  | .obj fs, key, v => .obj (setKey fs key v)
  | j, _, _ => j

/-! ## `serde_json` serialization (compact `to_string`) -/

/-- Lowercase hex digit. -/
def hexDigitChar (n : Nat) : Char :=
  if n < 10 then Char.ofNat (48 + n) else Char.ofNat (87 + n)

/-- `serde_json`'s string escaping: `"` and `\` get backslashes, control
characters below `0x20` use the short escapes or `\u00XX`, everything
else (including all non-ASCII) is emitted raw. -/
def escChar (c : Char) : List Char :=
  if c = '"' then ['\\', '"']
  else if c = '\\' then ['\\', '\\']
  else if c.toNat < 0x20 then
    if c = Char.ofNat 8 then ['\\', 'b']
    else if c = Char.ofNat 9 then ['\\', 't']
    else if c = Char.ofNat 10 then ['\\', 'n']
    else if c = Char.ofNat 12 then ['\\', 'f']
    else if c = Char.ofNat 13 then ['\\', 'r']
    else ['\\', 'u', '0', '0', hexDigitChar (c.toNat / 16), hexDigitChar (c.toNat % 16)]
  else [c]

/-- Serialized JSON string literal with quotes. -/
def serStr (s : String) : List Char := '"' :: s.data.flatMap escChar ++ ['"']

/-- Decimal digits of a natural number, least significant first (fuelled). -/
def digitsRevAux : Nat → Nat → List Nat
  | 0, _ => []
  | fuel+1, m => if m = 0 then [] else m % 10 :: digitsRevAux fuel (m / 10)

/-- Decimal representation of a natural number. -/
def natChars (m : Nat) : List Char :=
  if m = 0 then ['0'] else ((digitsRevAux m m).map (fun d => Char.ofNat (48 + d))).reverse

/-- Decimal representation of an integer. -/
def serInt (n : Int) : List Char :=
  if n < 0 then '-' :: natChars n.natAbs else natChars n.toNat

mutual
/-- Compact serialization of a value — `serde_json::to_string`. -/
def serJson : Json → List Char
  | .null => ['n', 'u', 'l', 'l']
  | .bool b => if b then ['t', 'r', 'u', 'e'] else ['f', 'a', 'l', 's', 'e']
  | .num n => serInt n
  | .str s => serStr s
  | .arr xs => '[' :: serList xs ++ [']']
  | .obj fs => lbrace :: serFields fs ++ [rbrace]
/-- Comma-separated serialization of array elements. -/
def serList : JsonList → List Char
  | .nil => []
  | .cons x .nil => serJson x
  | .cons x (.cons y tl) => serJson x ++ ',' :: serList (.cons y tl)
/-- Comma-separated serialization of `"key":value` members. -/
def serFields : JsonFields → List Char
  | .nil => []
  | .cons k v .nil => serStr k ++ ':' :: serJson v
  | .cons k v (.cons k2 v2 tl) => serStr k ++ ':' :: serJson v ++ ',' :: serFields (.cons k2 v2 tl)
end

/-- `serde_json::to_string` as a `String`. -/
def serializeJson (j : Json) : String := String.mk (serJson j)

/-! ## `serde_json` parser (`from_str`)

A model of `serde_json::from_str` for the compact one-line documents the
pipeline handles: no inter-token whitespace (the wrapped compiler emits
compact JSON), integer numerals only.  String escapes, surrogate pairs
and the control-character restriction follow `serde_json`. -/

/-- Value of one hex digit. -/
def hexVal (c : Char) : Option Nat :=
  if '0' ≤ c ∧ c ≤ '9' then some (c.toNat - 48)
  else if 'a' ≤ c ∧ c ≤ 'f' then some (c.toNat - 87)
  else if 'A' ≤ c ∧ c ≤ 'F' then some (c.toNat - 55)
  else none

/-- Value of a four-hex-digit escape. -/
def hex4 (a b c d : Char) : Option Nat :=
  match hexVal a, hexVal b, hexVal c, hexVal d with
  | some w, some x, some y, some z => some (w * 4096 + x * 256 + y * 16 + z)
  | _, _, _, _ => none

/-- Fuelled JSON string-body parser (after the opening quote): returns
the decoded characters and the input following the closing quote. -/
def parseStrBody : Nat → List Char → Option (List Char × List Char)
  | 0, _ => none
  | fuel+1, l =>
    match l with
    | [] => none
    | '"' :: r => some ([], r)
    | '\\' :: e :: r =>
      if e = '"' then (parseStrBody fuel r).map (fun p => ('"' :: p.1, p.2))
      else if e = '\\' then (parseStrBody fuel r).map (fun p => ('\\' :: p.1, p.2))
      else if e = '/' then (parseStrBody fuel r).map (fun p => ('/' :: p.1, p.2))
      else if e = 'b' then (parseStrBody fuel r).map (fun p => (Char.ofNat 8 :: p.1, p.2))
      else if e = 'f' then (parseStrBody fuel r).map (fun p => (Char.ofNat 12 :: p.1, p.2))
      else if e = 'n' then (parseStrBody fuel r).map (fun p => (Char.ofNat 10 :: p.1, p.2))
      else if e = 'r' then (parseStrBody fuel r).map (fun p => (Char.ofNat 13 :: p.1, p.2))
      else if e = 't' then (parseStrBody fuel r).map (fun p => (Char.ofNat 9 :: p.1, p.2))
      else if e = 'u' then
        match r with
        | a :: b :: c :: d :: r2 =>
          match hex4 a b c d with
          | none => none
          | some n =>
            if n < 0xD800 ∨ 0xE000 ≤ n then
              (parseStrBody fuel r2).map (fun p => (Char.ofNat n :: p.1, p.2))
            else if n < 0xDC00 then
              match r2 with
              | '\\' :: 'u' :: a2 :: b2 :: c2 :: d2 :: r3 =>
                match hex4 a2 b2 c2 d2 with
                | none => none
                | some n2 =>
                  if 0xDC00 ≤ n2 ∧ n2 < 0xE000 then
                    (parseStrBody fuel r3).map
                      (fun p => (Char.ofNat (0x10000 + (n - 0xD800) * 0x400 + (n2 - 0xDC00)) :: p.1, p.2))
                  else none
              | _ => none
            else none
        | _ => none
      else none
    | c :: r =>
      if c.toNat < 0x20 then none
      else (parseStrBody fuel r).map (fun p => (c :: p.1, p.2))

/-- Parse a non-empty run of decimal digits. -/
def parseNatChars (l : List Char) : Option (Nat × List Char) :=
  let ds := l.takeWhile (fun c => c.isDigit)
  if ds = [] then none
  else some (ds.foldl (fun a c => a * 10 + (c.toNat - 48)) 0, l.dropWhile (fun c => c.isDigit))

mutual
/-- Fuelled value parser. -/
def parseV : Nat → List Char → Option (Json × List Char)
  | 0, _ => none
  | fuel+1, l =>
    match l with
    | 'n' :: 'u' :: 'l' :: 'l' :: r => some (.null, r)
    | 't' :: 'r' :: 'u' :: 'e' :: r => some (.bool true, r)
    | 'f' :: 'a' :: 'l' :: 's' :: 'e' :: r => some (.bool false, r)
    | c :: r =>
      if c = '"' then
        (parseStrBody (r.length + 1) r).map (fun p => (Json.str (String.mk p.1), p.2))
      else if c = '[' then
        match r with
        | ']' :: r2 => some (.arr .nil, r2)
        | _ => (parseItems fuel r).map (fun p => (Json.arr p.1, p.2))
      else if c = lbrace then
        match r with
        | c2 :: r2 => if c2 = rbrace then some (.obj .nil, r2)
                      else (parseMembers fuel r).map (fun p => (Json.obj p.1, p.2))
        | [] => none
      else if c = '-' then
        (parseNatChars r).map (fun p => (Json.num (-(p.1 : Int)), p.2))
      else if c.isDigit then
        (parseNatChars (c :: r)).map (fun p => (Json.num (p.1 : Int), p.2))
      else none
    | [] => none
/-- Fuelled parser for the elements of a non-empty array (after `[`). -/
def parseItems : Nat → List Char → Option (JsonList × List Char)
  | 0, _ => none
  | fuel+1, l =>
    match parseV fuel l with
    | none => none
    | some (v, r) =>
      match r with
      | ',' :: r2 => (parseItems fuel r2).map (fun p => (JsonList.cons v p.1, p.2))
      | ']' :: r2 => some (.cons v .nil, r2)
      | _ => none
/-- Fuelled parser for the members of a non-empty object (after `{`). -/
def parseMembers : Nat → List Char → Option (JsonFields × List Char)
  | 0, _ => none
  | fuel+1, l =>
    match l with
    | '"' :: r =>
      match parseStrBody (r.length + 1) r with
      | none => none
      | some (k, r1) =>
        match r1 with
        | ':' :: r2 =>
          match parseV fuel r2 with
          | none => none
          | some (v, r3) =>
            match r3 with
            | c3 :: r4 =>
              if c3 = ',' then (parseMembers fuel r4).map (fun p => (JsonFields.cons (String.mk k) v p.1, p.2))
              else if c3 = rbrace then some (.cons (String.mk k) v .nil, r4)
              else none
            | [] => none
        | _ => none
    | _ => none
end

/-- `serde_json::from_str::<Value>` on one line: a single value spanning
the whole input. -/
def parseJson (s : String) : Option Json :=
  match parseV (s.data.length + 1) s.data with
  | some (j, []) => some j
  | _ => none

end RustcJa

namespace RustcJa

/-! ## `translate_json_message` (diagnostic tree translation) -/

/-- Translate the `message` field of a record (the identical code appears
in the source once for the top-level record, lines 150–156, and once per
child, lines 181–187): replace only on change, log the pair. -/
def translateMessageField (ts : List TranslateEntry) (c : Json) : Json × List (String × String) :=
  match c.get "message" with
  | some (.str m) =>
    let t := translate_message m ts
    if t ≠ m then (c.set "message" (.str t), [(m, t)]) else (c, [])
  | _ => (c, [])

/-- Translate one span's `label` (when present and a string); returns the
updated span and the logged (original, translated) pair when it changed. -/
def translateSpan (ts : List TranslateEntry) (span : Json) : Json × List (String × String) :=
  match span.get "label" with
  | some (.str label) =>
    let translated := translate_message label ts
    if translated ≠ label then (span.set "label" (.str translated), [(label, translated)])
    else (span, [])
  | _ => (span, [])

/-- The `spans[]` loop: update each span, logging pairs in span order. -/
def translateSpans (ts : List TranslateEntry) : JsonList → JsonList × List (String × String)
  | .nil => (.nil, [])
  | .cons s tl =>
    let r := translateSpan ts s
    let rs := translateSpans ts tl
    (.cons r.1 rs.1, r.2 ++ rs.2)

/-- One `children[]` element: its `message`, then its `spans[].label`s. -/
def translateChild (ts : List TranslateEntry) (child : Json) : Json × List (String × String) :=
  let step1 := translateMessageField ts child
  match child.get "spans" with
  | some (.arr spans) =>
    let r := translateSpans ts spans
    (step1.1.set "spans" (.arr r.1), step1.2 ++ r.2)
  | _ => step1

/-- The `children[]` loop. -/
def translateChildren (ts : List TranslateEntry) : JsonList → JsonList × List (String × String)
  | .nil => (.nil, [])
  | .cons c tl =>
    let r := translateChild ts c
    let rs := translateChildren ts tl
    (.cons r.1 rs.1, r.2 ++ rs.2)

/-- The field-updating part of `translate_json_message` (everything before
the `rendered` reconciliation): translate `message`, `spans[].label`,
`children[].message`, `children[].spans[].label`, accumulating the
`replaced` log in push order. -/
def translateCore (ts : List TranslateEntry) (j : Json) : Json × List (String × String) :=
  let s1 := translateMessageField ts j
  let s2 :=
    match j.get "spans" with
    | some (.arr spans) =>
      let r := translateSpans ts spans
      (s1.1.set "spans" (.arr r.1), s1.2 ++ r.2)
    | _ => s1
  match j.get "children" with
  | some (.arr cs) =>
    let r := translateChildren ts cs
    (s2.1.set "children" (.arr r.1), s2.2 ++ r.2)
  | _ => s2

/-- The `rendered` reconciliation loop: apply the logged pairs in order as
literal global replacements, skipping empty or identity originals. -/
def applyLog (pairs : List (String × String)) (r : String) : String :=
  pairs.foldl
    (fun acc p => if p.1 ≠ "" ∧ p.1 ≠ p.2 then rustReplace acc p.1 p.2 else acc) r

/-- `translate_json_message`: tree translation, `rendered` reconciliation,
then the `to_string`/`from_str` normalization round trip of the source
(lines 220–225; `to_string` on a `Value` cannot fail, and `from_str`
falling back to the in-memory value on failure is the `unwrap_or`). -/
def translate_json_message (j : Json) (ts : List TranslateEntry) : Json :=
  let core := translateCore ts j
  let j4 :=
    match core.1.get "rendered" with
    | some (.str r) => core.1.set "rendered" (.str (applyLog core.2 r))
    | _ => core.1
  match parseJson (serializeJson j4) with
  | some v => v
  | none => j4

/-- `convert_json_error_line`: only records whose `$message_type` field is
the string `"diagnostic"` are translated; everything else passes through. -/
def convert_json_error_line (ts : List TranslateEntry) (j : Json) : Json :=
  match j.get "$message_type" with
  | some (.str mt) => if mt = "diagnostic" then translate_json_message j ts else j
  | _ => j

/-- `convert_json_error_format`: decode the stderr bytes as UTF-8 (else
pass the bytes through), parse every line as JSON (any failure passes the
whole original buffer through), translate each record, and re-serialize
the lines joined by `\n`. -/
def convert_json_error_format (ts : List TranslateEntry) (data : List UInt8) : List UInt8 :=
  match utf8Decode data with
  | none => data
  | some cs =>
    match (rustLines (String.mk cs)).mapM
        (fun line => (parseJson line).map (fun j => serializeJson (convert_json_error_line ts j))) with
    | none => data
    | some outLines => utf8Encode (String.intercalate "\n" outLines).data

/-! ## Specification-side definitions

These are written from the specification's wording, to be compared with
the source-derived definitions above in the refinement theorems. -/

/-- Log contribution of translating one text field (spec §4.3: replace
only on change; log each change). -/
def logOfString (ts : List TranslateEntry) (s : String) : List (String × String) :=
  let t := translate_message s ts
  if t ≠ s then [(s, t)] else []

/-- Spec-side log of a span list: each `label` in array order. -/
def spanLogs (ts : List TranslateEntry) : JsonList → List (String × String)
  | .nil => []
  | .cons s tl =>
    (match s.getStr "label" with
     | some l => logOfString ts l
     | none => []) ++ spanLogs ts tl

/-- Spec-side log of one child: its `message`, then its span labels. -/
def childLog (ts : List TranslateEntry) (c : Json) : List (String × String) :=
  (match c.getStr "message" with
   | some m => logOfString ts m
   | none => []) ++
  (match c.get "spans" with
   | some (.arr sp) => spanLogs ts sp
   | _ => [])

/-- Spec-side log of the children list. -/
def childrenLogs (ts : List TranslateEntry) : JsonList → List (String × String)
  | .nil => []
  | .cons c tl => childLog ts c ++ childrenLogs ts tl

/-- The substitution log in the order the pairs are produced during tree
translation: top-level `message`, then `spans[].label` in array order,
then per child its `message` followed by its `spans[].label`s. -/
def collectLogSpec (ts : List TranslateEntry) (j : Json) : List (String × String) :=
  (match j.getStr "message" with
   | some m => logOfString ts m
   | none => []) ++
  (match j.get "spans" with
   | some (.arr sp) => spanLogs ts sp
   | _ => []) ++
  (match j.get "children" with
   | some (.arr cs) => childrenLogs ts cs
   | _ => [])

/-- The text fields eligible for translation (claim C8's hypothesis
ranges over these). -/
def eligibleStrings (j : Json) : List String :=
  (match j.getStr "message" with
   | some m => [m]
   | none => []) ++
  (match j.get "spans" with
   | some (.arr sp) => spanLabels sp
   | _ => []) ++
  (match j.get "children" with
   | some (.arr cs) => childrenStrings cs
   | _ => [])
where
  /-- Labels of a span list. -/
  spanLabels : JsonList → List String
    | .nil => []
    | .cons s tl =>
      (match s.getStr "label" with
       | some l => [l]
       | none => []) ++ spanLabels tl
  /-- Message and labels of each child. -/
  childrenStrings : JsonList → List String
    | .nil => []
    | .cons c tl =>
      (match c.getStr "message" with
       | some m => [m]
       | none => []) ++
      (match c.get "spans" with
       | some (.arr sp) => spanLabels sp
       | _ => []) ++ childrenStrings tl

/-- Mask the value at `key` (when the field is present) with `null`:
erases exactly the information the claims allow translation to change. -/
def maskKey (j : Json) (key : String) : Json :=
  match j.get key with
  | some _ => j.set key .null
  | none => j

/-- Mask every span's `label`. -/
def maskSpanList : JsonList → JsonList
  | .nil => .nil
  | .cons s tl => .cons (maskKey s "label") (maskSpanList tl)

/-- Mask the `spans` array of a record, if it is one. -/
def maskSpansOf (j : Json) : Json :=
  match j.get "spans" with
  | some (.arr sp) => j.set "spans" (.arr (maskSpanList sp))
  | _ => j

/-- Mask each child's `message` and span labels. -/
def maskChildList : JsonList → JsonList
  | .nil => .nil
  | .cons c tl => .cons (maskSpansOf (maskKey c "message")) (maskChildList tl)

/-- Mask the `children` array of a record, if it is one. -/
def maskChildrenOf (j : Json) : Json :=
  match j.get "children" with
  | some (.arr cs) => j.set "children" (.arr (maskChildList cs))
  | _ => j

/-- Erase (only) the values at the five eligible positions — `message`,
`spans[].label`, `children[].message`, `children[].spans[].label`,
`rendered`.  Everything the frame claim C5 requires to be preserved —
field presence, array lengths and order, nesting, all other values — is
untouched, so `maskEligible x = maskEligible y` states exactly that `x`
and `y` agree outside those positions. -/
def maskEligible (j : Json) : Json :=
  maskKey (maskChildrenOf (maskSpansOf (maskKey j "message"))) "rendered"

/-- Characters that may legally follow a serialized value in context
(used by the parser/serializer round-trip development). -/
def RestOk : List Char → Prop
  | [] => True
  | c :: _ => c = ',' ∨ c = ']' ∨ c = rbrace

end RustcJa

namespace RustcJa

set_option maxRecDepth 40000

/-! ## Helper lemmas: strings and the phrase scan -/

theorem splitChars_ne_nil (pat : List Char) :
    ∀ fuel l, splitChars pat fuel l ≠ [] := by
  intro fuel
  induction fuel with
  | zero => intro l; cases l <;> simp [splitChars]
  | succ n ih =>
    intro l
    cases l with
    | nil => simp [splitChars]
    | cons c cs =>
      simp only [splitChars]
      split
      · simp
      · split <;> simp_all

theorem replChars_eq_intercalate (pat rep : List Char) :
    ∀ fuel l, replChars pat rep fuel l = List.intercalate rep (splitChars pat fuel l) := by
  intro fuel
  induction fuel with
  | zero =>
    intro l
    cases l <;> simp [replChars, splitChars, List.intercalate]
  | succ n ih =>
    intro l
    cases l with
    | nil => simp [replChars, splitChars, List.intercalate]
    | cons c cs =>
      simp only [replChars, splitChars]
      split
      · rw [ih]
        rcases h : splitChars pat n ((c :: cs).drop pat.length) with _ | ⟨p, ps⟩
        · exact absurd h (splitChars_ne_nil pat n _)
        · simp [h, List.intercalate, List.intersperse]
      · rw [ih]
        rcases h : splitChars pat n cs with _ | ⟨p, ps⟩
        · exact absurd h (splitChars_ne_nil pat n _)
        · cases ps <;> simp [h, List.intercalate, List.intersperse]

theorem pat_ne_nil_of_contains {pat l : List Char} (hpat : pat ≠ []) (h : pat <:+: l) :
    l ≠ [] := by
  rcases h with ⟨s, t, hst⟩
  intro hl
  subst hl
  simp at hst
  exact hpat hst.2.1

theorem infix_replChars (pat rep : List Char) (hpat : pat ≠ []) :
    ∀ fuel l, l.length ≤ fuel → pat <:+: l →
      rep <:+: replChars pat rep fuel l := by
  intro fuel
  induction fuel with
  | zero =>
    intro l hl hinf
    have := pat_ne_nil_of_contains hpat hinf
    cases l with
    | nil => simp at this
    | cons c cs => simp at hl
  | succ n ih =>
    intro l hl hinf
    cases l with
    | nil => exact absurd rfl (pat_ne_nil_of_contains hpat hinf)
    | cons c cs =>
      simp only [replChars]
      split
      · exact ⟨[], replChars pat rep n ((c :: cs).drop pat.length), by simp⟩
      · rename_i hnp
        have hs : pat <:+: cs := by
          rcases (List.infix_cons_iff).mp hinf with hpre | hsuf
          · exact absurd (List.isPrefixOf_iff_prefix.mpr hpre) (by simpa using hnp)
          · exact hsuf
        have hrec := ih cs (by simpa using hl) hs
        exact List.infix_cons hrec

end RustcJa

namespace RustcJa

/-- `tokAux` only ever appends to the accumulated segment list. -/
theorem tokAux_fst_prefix :
    ∀ (l : List Char) st segs lit, ∃ ext, (tokAux st segs lit l).1 = segs ++ ext := by
  intro l
  induction l with
  | nil => intro st segs lit; exact ⟨[], by simp [tokAux]⟩
  | cons c rest ih =>
    intro st segs lit
    cases st with
    | normal =>
      simp only [tokAux]
      split
      · exact ih _ _ _
      · exact ih _ _ _
    | afterBrace =>
      simp only [tokAux]
      split
      · exact ih _ _ _
      · split
        · exact ih _ _ _
        · exact ih _ _ _
    | inPh name =>
      simp only [tokAux]
      split
      · exact ih _ _ _
      · split
        · rcases ih .normal (segs ++ [(lit, String.mk name)]) [] with ⟨ext, hext⟩
          exact ⟨(lit, String.mk name) :: ext, by simpa using hext⟩
        · split
          · exact ih _ _ _
          · exact ih _ _ _

/-- If the scan emits no segment, the trailing literal is the pending
text plus the rest of the input. -/
theorem tokAux_no_seg :
    ∀ (l : List Char) st segs lit, (tokAux st segs lit l).1 = segs →
      (tokAux st segs lit l).2 = (lit ++ tkPending st) ++ l := by
  intro l
  induction l with
  | nil => intro st segs lit _; simp [tokAux]
  | cons c rest ih =>
    intro st segs lit h
    cases st with
    | normal =>
      simp only [tokAux] at h ⊢
      split at h <;> rename_i hc
      · rw [if_pos hc, ih _ _ _ h]; simp [tkPending, hc]
      · rw [if_neg hc, ih _ _ _ h]; simp [tkPending]
    | afterBrace =>
      simp only [tokAux] at h ⊢
      split at h <;> rename_i hc
      · rw [if_pos hc, ih _ _ _ h]; simp [tkPending, hc]
      · rw [if_neg hc]
        split at h <;> rename_i hc2
        · rw [if_pos hc2, ih _ _ _ h]; simp [tkPending, hc2]
        · rw [if_neg hc2, ih _ _ _ h]; simp [tkPending]
    | inPh name =>
      simp only [tokAux] at h ⊢
      split at h <;> rename_i hc
      · rw [if_pos hc, ih _ _ _ h]; simp [tkPending]
      · rw [if_neg hc]
        split at h <;> rename_i hc2
        · exfalso
          rcases tokAux_fst_prefix rest .normal (segs ++ [(lit, String.mk name)]) [] with ⟨ext, hext⟩
          rw [hext] at h
          have := congrArg List.length h
          simp at this
        · rw [if_neg hc2]
          split at h <;> rename_i hc3
          · rw [if_pos hc3, ih _ _ _ h]; simp [tkPending, hc3]
          · rw [if_neg hc3, ih _ _ _ h]; simp [tkPending]

end RustcJa

namespace RustcJa

/-! ## C1, C2: translate_message scan -/

theorem first_match_core
    (pre post : List TranslateEntry) (e : TranslateEntry) (msg : String)
    (ct : CompiledTemplate) (caps : List (String × String)) (rem : List Char)
    (hpre : ∀ e' ∈ pre, applyEntry msg e' = none)
    (hc : compileEntry e = some ct)
    (hm : matchSegs ct.tail ct.segs msg.data = some (caps, rem)) :
    translate_message msg (pre ++ e :: post) = substituteCaps e.ja caps ++ String.mk rem := by
  have happ : applyEntry msg e = some (substituteCaps e.ja caps ++ String.mk rem) := by
    simp [applyEntry, hc, hm]
  simp [translate_message, List.findSome?_append,
    List.findSome?_eq_none_iff.mpr hpre, List.findSome?_cons, happ]

/-- C1: when the first entry whose compiled template prefix-matches the
message is `e` (every earlier entry fails to compile or match), the
result is `e`'s target with each captured placeholder substituted —
`substituteCaps` leaves uncaptured tokens literal — followed by the
unmatched trailing remainder verbatim; the entries after `e` are
arbitrary, so no later entry is consulted. -/
theorem translate_message_first_match
    (pre post : List TranslateEntry) (e : TranslateEntry) (msg : String)
    (ct : CompiledTemplate) (caps : List (String × String)) (rem : List Char)
    (hpre : ∀ e' ∈ pre, applyEntry msg e' = none)
    (hc : compileEntry e = some ct)
    (hm : matchSegs ct.tail ct.segs msg.data = some (caps, rem)) :
    translate_message msg (pre ++ e :: post) = substituteCaps e.ja caps ++ String.mk rem :=
  first_match_core pre post e msg ct caps rem hpre hc hm

/-- C2: when no entry compile-and-prefix-matches the message,
`translate_message` returns it unchanged (the return type is `String`,
not a result type: there is no error channel). -/
theorem translate_message_passthrough (msg : String) (ts : List TranslateEntry)
    (h : ∀ e ∈ ts, applyEntry msg e = none) :
    translate_message msg ts = msg := by
  simp [translate_message, List.findSome?_eq_none_iff.mpr h]

theorem tm_first_match_witness :
    (∀ e' ∈ [TranslateEntry.mk "zz" "W"], applyEntry "error: foo" e' = none) ∧
    compileEntry ⟨"error: \x7b$name\x7d", "E=\x7b$name\x7d!"⟩
      = some ⟨[("error: ".data, "name")], []⟩ ∧
    matchSegs [] [("error: ".data, "name")] "error: foo".data
      = some ([("name", "f")], "oo".data) ∧
    translate_message "error: foo"
      ([⟨"zz", "W"⟩] ++ ⟨"error: \x7b$name\x7d", "E=\x7b$name\x7d!"⟩ :: [⟨"e", "Q"⟩])
      = "E=f!oo" := by
  refine ⟨by decide, by decide, by decide, ?_⟩
  have := translate_message_first_match [⟨"zz", "W"⟩] [⟨"e", "Q"⟩]
    ⟨"error: \x7b$name\x7d", "E=\x7b$name\x7d!"⟩ "error: foo"
    ⟨[("error: ".data, "name")], []⟩ [("name", "f")] "oo".data
    (by decide) (by decide) (by decide)
  rw [this]
  decide

theorem tm_passthrough_witness :
    (∀ e ∈ [TranslateEntry.mk "hello" "X"], applyEntry "bye" e = none) ∧
    translate_message "bye" [⟨"hello", "X"⟩] = "bye" := by
  refine ⟨by decide, ?_⟩
  exact translate_message_passthrough "bye" [⟨"hello", "X"⟩] (by decide)

end RustcJa

namespace RustcJa

/-! ## C3: phrase table order -/

/-- Byte length of a character list. -/
theorem byteLen_mk_append (a b : List Char) :
    byteLen (String.mk (a ++ b)) = byteLen (String.mk a) + byteLen (String.mk b) := by
  simp [byteLen]

theorem byteLen_lt_of_proper_prefix {a b : String}
    (hp : a.data <+: b.data) (hne : a ≠ b) : byteLen a < byteLen b := by
  rcases hp with ⟨t, ht⟩
  have htne : t ≠ [] := by
    intro h
    subst h
    exact hne (String.ext (by simpa using ht))
  have : byteLen b = byteLen a + (t.map (fun c => c.utf8Size)).sum := by
    rw [byteLen, byteLen, ← ht]
    simp
  rw [this]
  have : 0 < (t.map (fun c => c.utf8Size)).sum := by
    cases t with
    | nil => simp at htne
    | cons c cs =>
      have := c.utf8Size_pos
      simp [List.sum_cons]
      omega
  omega

/-- C3: the constructed table is sorted by descending UTF-8 byte length
of the source template (`String::len`), it is a pure value (a permutation
of the input, never mutated), and no template strictly prefix-precedes a
template it is a proper prefix of, so the longer one is scanned first. -/
theorem sortTranslateList_spec (l : List TranslateEntry) :
    (sortTranslateList l).Pairwise (fun a b => byteLen b.en ≤ byteLen a.en)
    ∧ (sortTranslateList l).Pairwise (fun a b => ¬(a.en.data <+: b.en.data ∧ a.en ≠ b.en))
    ∧ (sortTranslateList l).Perm l := by
  have hs := @List.sorted_mergeSort TranslateEntry
    (fun a b => decide (byteLen b.en ≤ byteLen a.en))
    (by intro a b c hab hbc; simp at *; omega)
    (by intro a b; simp; omega) l
  refine ⟨by simpa using hs, ?_, List.mergeSort_perm l _⟩
  refine hs.imp ?_
  intro a b hba
  simp only [decide_eq_true_eq] at hba
  rintro ⟨hp, hne⟩
  have h1 : a.en ≠ b.en := hne
  have := byteLen_lt_of_proper_prefix hp h1
  omega

theorem sort_not_char_ordered :
    ¬ ((sortTranslateList [⟨String.mk [Char.ofNat 0xE9, Char.ofNat 0xE9], "y"⟩,
          ⟨"abc", "x"⟩]).Pairwise
        (fun a b : TranslateEntry => b.en.length ≤ a.en.length)) := by
  have hsorted : (([⟨String.mk [Char.ofNat 0xE9, Char.ofNat 0xE9], "y"⟩,
      ⟨"abc", "x"⟩] : List TranslateEntry)).Pairwise
      (fun a b : TranslateEntry => (decide (byteLen b.en ≤ byteLen a.en)) = true) := by
    decide
  rw [sortTranslateList, List.mergeSort_of_sorted hsorted]
  decide

end RustcJa

namespace RustcJa

/-! ## C6: duplicate placeholder names -/

/-- C6: an entry whose source template reuses a placeholder name fails
regex compilation (duplicate capture-group name), so the entry is skipped
and the scan continues over the remaining entries — it never matches or
substitutes. -/
theorem dup_name_entry_skipped (e : TranslateEntry) (msg : String)
    (pre post : List TranslateEntry)
    (hdup : ¬ ((tokenizeTemplate e.en.data).1.map (fun sg => sg.2)).Nodup) :
    applyEntry msg e = none ∧
    translate_message msg (pre ++ e :: post) = translate_message msg (pre ++ post) := by
  have hc : compileEntry e = none := by
    rw [compileEntry]
    rw [if_neg]
    intro hand
    exact hdup hand.1
  have happ : applyEntry msg e = none := by simp [applyEntry, hc]
  refine ⟨happ, ?_⟩
  simp [translate_message, List.findSome?_append, List.findSome?_cons, happ]

theorem dup_name_counterexample :
    compileEntry ⟨"\x7b$x\x7d and \x7b$x\x7d", "A\x7b$x\x7dB"⟩ = none ∧
    translate_message "1 and 2" [⟨"\x7b$x\x7d and \x7b$x\x7d", "A\x7b$x\x7dB"⟩] = "1 and 2" := by
  constructor
  · decide
  · decide

theorem dup_name_witness :
    (¬ ((tokenizeTemplate ("\x7b$x\x7d and \x7b$x\x7d" : String).data).1.map
        (fun sg => sg.2)).Nodup) ∧
    applyEntry "1 and 2" ⟨"\x7b$x\x7d and \x7b$x\x7d", "A\x7b$x\x7dB"⟩ = none ∧
    translate_message "1 and 2"
        ([⟨"q", "r"⟩] ++ ⟨"\x7b$x\x7d and \x7b$x\x7d", "A\x7b$x\x7dB"⟩ :: [⟨"1 and 2", "OK"⟩])
      = translate_message "1 and 2" ([⟨"q", "r"⟩] ++ [⟨"1 and 2", "OK"⟩]) := by
  refine ⟨by decide, ?_⟩
  exact dup_name_entry_skipped ⟨"\x7b$x\x7d and \x7b$x\x7d", "A\x7b$x\x7dB"⟩ "1 and 2"
    [⟨"q", "r"⟩] [⟨"1 and 2", "OK"⟩] (by decide)

/-! ## C7: exact phrase invariant -/

/-- C7: a zero-placeholder entry translates its own source template to
exactly its target template, provided no earlier table entry
compile-and-prefix-matches that text. -/
theorem exact_phrase_of_no_earlier_match (pre post : List TranslateEntry) (e : TranslateEntry)
    (hpre : ∀ e' ∈ pre, applyEntry e.en e' = none)
    (hz : (tokenizeTemplate e.en.data).1 = []) :
    translate_message e.en (pre ++ e :: post) = e.ja := by
  have ht2 : (tokenizeTemplate e.en.data).2 = e.en.data := by
    have := tokAux_no_seg e.en.data .normal [] [] hz
    simpa [tkPending] using this
  have hc : compileEntry e = some ⟨[], e.en.data⟩ := by
    rw [compileEntry, if_pos]
    · rw [Option.some.injEq]
      exact congrArg₂ CompiledTemplate.mk hz ht2
    · rw [hz]
      simp
  have hm : matchSegs e.en.data [] e.en.data = some ([], []) := by
    rw [matchSegs]
    rw [if_pos (by simp [List.isPrefixOf_iff_prefix])]
    have hd : List.drop e.en.length e.en.data = [] := by
      rw [show e.en.length = e.en.data.length from rfl, List.drop_length]
    simp [hd]
  have := first_match_core pre post e e.en ⟨[], e.en.data⟩ [] [] hpre hc
    (by simpa using hm)
  rw [this]
  show e.ja ++ "" = e.ja
  simp

theorem exact_phrase_witness :
    (∀ e' ∈ [TranslateEntry.mk "zzzz" "W"],
      applyEntry (TranslateEntry.mk "abc" "Q").en e' = none) ∧
    (tokenizeTemplate (TranslateEntry.mk "abc" "Q").en.data).1 = [] ∧
    translate_message "abc" ([⟨"zzzz", "W"⟩] ++ ⟨"abc", "Q"⟩ :: [⟨"a", "R"⟩]) = "Q" := by
  refine ⟨by decide, by decide, ?_⟩
  exact exact_phrase_of_no_earlier_match [⟨"zzzz", "W"⟩] [⟨"a", "R"⟩] ⟨"abc", "Q"⟩
    (by decide) (by decide)

theorem exact_phrase_counterexample :
    (tokenizeTemplate (TranslateEntry.mk "abc" "Q").en.data).1 = [] ∧
    translate_message "abc" [⟨"a\x7b$x\x7dc", "P"⟩, ⟨"abc", "Q"⟩] ≠ "Q" := by
  constructor
  · decide
  · decide

end RustcJa

namespace RustcJa

/-! ## C10: all occurrences in the target get the captured value -/

theorem validGroupName_ne (nm : String) (h : validGroupName nm = true) :
    ¬(nm = "" ∨ nm = "0" ∨ nm = "1") := by
  rintro (rfl | rfl | rfl) <;> simp [validGroupName] at h

theorem compileEntry_names_valid (e : TranslateEntry) (ct : CompiledTemplate)
    (hc : compileEntry e = some ct) :
    ∀ nm ∈ ct.segs.map (fun sg => sg.2), validGroupName nm = true := by
  rw [compileEntry] at hc
  split at hc
  · rename_i hcond
    cases hc
    exact hcond.2
  · exact absurd hc (by simp)

/-- C10: substitution of a captured placeholder uses `str::replace`,
which is the intercalation of the captured value over the leftmost
non-overlapping split of the target on the token — every occurrence of
the token, not just the first, receives the same captured value. -/
theorem target_all_occurrences_substituted (e : TranslateEntry) (msg : String)
    (l0 tl : List Char) (nm val : String) (rem : List Char)
    (hc : compileEntry e = some ⟨[(l0, nm)], tl⟩)
    (hm : matchSegs tl [(l0, nm)] msg.data = some ([(nm, val)], rem)) :
    translate_message msg [e] =
      String.mk (List.intercalate val.data
        (splitChars (phToken nm).data e.ja.data.length e.ja.data)) ++ String.mk rem := by
  have hval : validGroupName nm = true := by
    have := compileEntry_names_valid e ⟨[(l0, nm)], tl⟩ hc
    simp at this
    exact this
  have hne := validGroupName_ne nm hval
  have hpd : (phToken nm).data ≠ [] := by
    rw [phToken, String.data_append, String.data_append]
    simp
  calc translate_message msg [e]
      = substituteCaps e.ja [(nm, val)] ++ String.mk rem := by
        simp [translate_message, List.findSome?_cons, applyEntry, hc, hm]
    _ = rustReplace e.ja (phToken nm) val ++ String.mk rem := by
        rw [substituteCaps, List.foldl_cons, List.foldl_nil, if_neg hne]
    _ = _ := by
        rw [rustReplace, if_neg hpd, replChars_eq_intercalate]

end RustcJa

namespace RustcJa

theorem target_all_occurrences_witness :
    compileEntry ⟨"e \x7b$x\x7d", "[\x7b$x\x7d](\x7b$x\x7d)"⟩ = some ⟨[("e ".data, "x")], []⟩ ∧
    matchSegs [] [("e ".data, "x")] "e 12".data = some ([("x", "1")], "2".data) ∧
    translate_message "e 12" [⟨"e \x7b$x\x7d", "[\x7b$x\x7d](\x7b$x\x7d)"⟩] =
      String.mk (List.intercalate ("1" : String).data
        (splitChars (phToken "x").data ("[\x7b$x\x7d](\x7b$x\x7d)" : String).data.length
          ("[\x7b$x\x7d](\x7b$x\x7d)" : String).data)) ++ String.mk "2".data ∧
    translate_message "e 12" [⟨"e \x7b$x\x7d", "[\x7b$x\x7d](\x7b$x\x7d)"⟩] = "[1](1)2" := by
  refine ⟨by decide, by decide, ?_, by decide⟩
  exact target_all_occurrences_substituted ⟨"e \x7b$x\x7d", "[\x7b$x\x7d](\x7b$x\x7d)"⟩ "e 12"
    "e ".data [] "x" "1" "2".data (by decide) (by decide)

end RustcJa

namespace RustcJa

/-! ## Parser/serializer round trip: numbers -/

theorem char_toNat_ofNat {n : Nat} (h : n < 0xD800) : (Char.ofNat n).toNat = n := by
  rw [Char.ofNat, dif_pos (Or.inl h)]
  rfl

theorem digitsRevAux_eq_digits : ∀ fuel m, m ≤ fuel → digitsRevAux fuel m = Nat.digits 10 m := by
  intro fuel
  induction fuel with
  | zero =>
    intro m hm
    interval_cases m
    simp [digitsRevAux]
  | succ f ih =>
    intro m hm
    by_cases h0 : m = 0
    · subst h0; simp [digitsRevAux]
    · rw [digitsRevAux, if_neg h0, Nat.digits_def' (by omega : (1:ℕ) < 10) (by omega : 0 < m)]
      rw [ih (m / 10) (by
        have := Nat.div_lt_self (by omega : 0 < m) (by omega : 1 < 10)
        omega)]

end RustcJa

namespace RustcJa

theorem natChars_all_digits (m : Nat) : ∀ c ∈ natChars m, c.isDigit = true := by
  rw [natChars]
  split
  · intro c hc; simp at hc; subst hc; decide
  · intro c hc
    simp only [List.mem_reverse, List.mem_map] at hc
    rcases hc with ⟨d, hd, rfl⟩
    have hdlt : d < 10 := by
      rw [digitsRevAux_eq_digits m m le_rfl] at hd
      exact Nat.digits_lt_base (by omega) hd
    interval_cases d <;> decide

end RustcJa

namespace RustcJa

theorem foldr_decimal (D : List Nat) (hD : ∀ d ∈ D, d < 10) :
    (D.map (fun d => Char.ofNat (48 + d))).foldr (fun c acc => acc * 10 + (c.toNat - 48)) 0
      = Nat.ofDigits 10 D := by
  induction D with
  | nil => simp [Nat.ofDigits]
  | cons d D' ih =>
    simp only [List.map_cons, List.foldr_cons, Nat.ofDigits_cons]
    rw [ih (fun x hx => hD x (List.mem_cons_of_mem _ hx))]
    rw [char_toNat_ofNat (by have := hD d (List.mem_cons_self _ _); omega)]
    have := hD d (List.mem_cons_self _ _)
    omega

theorem foldl_natChars (m : Nat) :
    (natChars m).foldl (fun a c => a * 10 + (c.toNat - 48)) 0 = m := by
  rw [natChars]
  split
  · rename_i h0; subst h0; decide
  · rename_i h0
    rw [List.foldl_reverse]
    have : ∀ (l : List Char), l.foldr (fun x acc => acc * 10 + (x.toNat - 48)) 0
        = l.foldr (fun c acc => acc * 10 + (c.toNat - 48)) 0 := fun l => rfl
    rw [digitsRevAux_eq_digits m m le_rfl]
    rw [foldr_decimal (Nat.digits 10 m) (fun d hd => Nat.digits_lt_base (by omega) hd)]
    exact Nat.ofDigits_digits 10 m

theorem natChars_ne_nil (m : Nat) : natChars m ≠ [] := by
  rw [natChars]
  split
  · simp
  · rename_i h0
    rw [digitsRevAux_eq_digits m m le_rfl]
    simp [Nat.digits_ne_nil_iff_ne_zero, h0]

theorem parseNatChars_roundtrip (m : Nat) (rest : List Char)
    (hrest : ∀ c, rest.head? = some c → c.isDigit = false) :
    parseNatChars (natChars m ++ rest) = some (m, rest) := by
  have htw : rest.takeWhile (fun c => c.isDigit) = [] := by
    cases rest with
    | nil => rfl
    | cons c r => simp [List.takeWhile_cons, hrest c rfl]
  have hdw : rest.dropWhile (fun c => c.isDigit) = rest := by
    cases rest with
    | nil => rfl
    | cons c r => simp [List.dropWhile_cons, hrest c rfl]
  rw [parseNatChars]
  rw [List.takeWhile_append_of_pos (natChars_all_digits m), htw, List.append_nil]
  rw [List.dropWhile_append_of_pos (natChars_all_digits m), hdw]
  rw [if_neg (natChars_ne_nil m)]
  rw [foldl_natChars m]

end RustcJa

namespace RustcJa

/-! ## Parser/serializer round trip: strings -/

theorem hexVal_hexDigitChar : ∀ n, n < 16 → hexVal (hexDigitChar n) = some n := by decide

theorem parseStrBody_roundtrip :
    ∀ (cs rest : List Char) (fuel : Nat),
      (cs.flatMap escChar).length < fuel →
      parseStrBody fuel (cs.flatMap escChar ++ '"' :: rest) = some (cs, rest) := by
  intro cs
  induction cs with
  | nil =>
    intro rest fuel hf
    cases fuel with
    | zero => simp at hf
    | succ f => simp [parseStrBody]
  | cons c cs' ih =>
    intro rest fuel hf
    have hlen1 : 0 < (escChar c).length := by
      rw [escChar]
      split
      · simp
      · split
        · simp
        · split
          · split
            · simp
            · split
              · simp
              · split
                · simp
                · split
                  · simp
                  · split <;> simp
          · simp
    cases fuel with
    | zero =>
      exfalso
      simp at hf
    | succ f =>
      have hfle : (cs'.flatMap escChar).length < f := by
        simp only [List.flatMap_cons, List.length_append] at hf
        omega
      have hih := ih rest f hfle
      simp only [List.flatMap_cons, List.append_assoc]
      by_cases h1 : c = '"'
      · subst h1
        simp [escChar, parseStrBody, hih]
      · by_cases h2 : c = '\\'
        · subst h2
          simp [escChar, parseStrBody, hih]
        · by_cases h3 : c.toNat < 0x20
          · by_cases hb : c = Char.ofNat 8
            · subst hb
              simp [escChar, parseStrBody, hih]
            · by_cases ht : c = Char.ofNat 9
              · subst ht
                simp [escChar, parseStrBody, hih]
              · by_cases hn : c = Char.ofNat 10
                · subst hn
                  simp [escChar, parseStrBody, hih]
                · by_cases hf12 : c = Char.ofNat 12
                  · subst hf12
                    simp [escChar, parseStrBody, hih]
                  · by_cases hr : c = Char.ofNat 13
                    · subst hr
                      simp [escChar, parseStrBody, hih]
                    · -- \u00XX escape
                      rw [escChar, if_neg h1, if_neg h2, if_pos h3, if_neg hb, if_neg ht,
                        if_neg hn, if_neg hf12, if_neg hr]
                      simp only [List.cons_append, List.nil_append]
                      have hv1 : hexVal (hexDigitChar (c.toNat / 16)) = some (c.toNat / 16) :=
                        hexVal_hexDigitChar _ (by omega)
                      have hv2 : hexVal (hexDigitChar (c.toNat % 16)) = some (c.toNat % 16) :=
                        hexVal_hexDigitChar _ (by omega)
                      have harith : c.toNat / 16 * 16 + c.toNat % 16 = c.toNat := by omega
                      have hz : hexVal '0' = some 0 := by decide
                      simp [parseStrBody, hex4, hz, hv1, hv2, harith, hih,
                        show c.toNat < 0xD800 by omega]
          · -- raw character
            rw [escChar, if_neg h1, if_neg h2, if_neg h3]
            simp only [List.cons_append, List.nil_append]
            rw [parseStrBody]
            · rw [if_neg h3, hih]
              rfl
            · intro hx
              exact absurd hx h1
            · intro e r hx _
              exact absurd hx h2

end RustcJa

namespace RustcJa

/-! ## Parser/serializer round trip: values -/

theorem restOk_head_not_digit {rest : List Char} (h : RestOk rest) :
    ∀ c, rest.head? = some c → c.isDigit = false := by
  intro c hc
  cases rest with
  | nil => simp at hc
  | cons d r =>
    simp at hc
    subst hc
    rcases h with h | h | h <;> subst h <;> decide

theorem natChars_not_rbracket (m : Nat) : ∀ t, natChars m ≠ ']' :: t := by
  intro t h
  have := natChars_all_digits m ']' (by rw [h]; exact List.mem_cons_self _ _)
  simp at this

theorem serJson_not_rbracket (j : Json) : ∀ t, serJson j ≠ ']' :: t := by
  intro t h
  cases j with
  | null => simp [serJson] at h
  | bool b => cases b <;> simp [serJson] at h
  | num n =>
    rw [serJson, serInt] at h
    split at h
    · simp at h
    · exact natChars_not_rbracket _ t h
  | str s => simp [serJson, serStr] at h
  | arr xs => simp [serJson] at h
  | obj fs =>
    simp [serJson] at h
    have : lbrace = ']' := h.1
    exact absurd this (by decide)

theorem serJson_ne_nil (j : Json) : serJson j ≠ [] := by
  cases j with
  | null => simp [serJson]
  | bool b => cases b <;> simp [serJson]
  | num n =>
    rw [serJson, serInt]
    split
    · simp
    · exact natChars_ne_nil _
  | str s => simp [serJson, serStr]
  | arr xs => simp [serJson]
  | obj fs => simp [serJson]

theorem string_mk_data (s : String) : String.mk s.data = s := rfl

end RustcJa

namespace RustcJa

end RustcJa

namespace RustcJa

theorem parseV_ser_null (fuel : Nat) (rest : List Char)
    (hf : (serJson .null).length < fuel) :
    parseV fuel (serJson .null ++ rest) = some (.null, rest) := by
  cases fuel with
  | zero => simp [serJson] at hf
  | succ f => simp [serJson, parseV]

theorem parseV_ser_bool (b : Bool) (fuel : Nat) (rest : List Char)
    (hf : (serJson (.bool b)).length < fuel) :
    parseV fuel (serJson (.bool b) ++ rest) = some (.bool b, rest) := by
  cases fuel with
  | zero => cases b <;> simp [serJson] at hf
  | succ f => cases b <;> simp [serJson, parseV]

theorem parseV_ser_str (s : String) (fuel : Nat) (rest : List Char)
    (hf : (serJson (.str s)).length < fuel) :
    parseV fuel (serJson (.str s) ++ rest) = some (.str s, rest) := by
  cases fuel with
  | zero => simp [serJson, serStr] at hf
  | succ f =>
    rw [serJson, serStr]
    simp only [List.cons_append, List.append_assoc, List.singleton_append]
    simp only [List.nil_append]
    simp [parseV]
    exact ⟨s.data, parseStrBody_roundtrip s.data rest _
      (by simp only [List.length_flatMap]; omega), string_mk_data s⟩

theorem parseV_cons_digit (f : Nat) (c0 : Char) (X : List Char) (hd : c0.isDigit = true) :
    parseV (f+1) (c0 :: X) = (parseNatChars (c0 :: X)).map (fun p => (Json.num (p.1 : Int), p.2)) := by
  have hq : ¬c0 = '"' := by intro h; subst h; simp at hd
  have hlb : ¬c0 = '[' := by intro h; subst h; simp at hd
  have hob : ¬c0 = lbrace := by intro h; subst h; exact absurd hd (by decide)
  have hmi : ¬c0 = '-' := by intro h; subst h; simp at hd
  rw [parseV.eq_def]
  split
  · rename_i heq
    exact absurd heq (by omega)
  · split
    · rename_i r heq
      exfalso
      injection heq with h1 h2
      subst h1
      simp at hd
    · rename_i r heq
      exfalso
      injection heq with h1 h2
      subst h1
      simp at hd
    · rename_i r heq
      exfalso
      injection heq with h1 h2
      subst h1
      simp at hd
    · rename_i c r heq
      injection heq with h1 h2
      subst h1
      subst h2
      rw [if_neg hq, if_neg hlb, if_neg hob, if_neg hmi, if_pos hd]
    · rename_i heq
      exact absurd heq (by simp)

theorem parseV_ser_num (n : Int) (fuel : Nat) (rest : List Char)
    (hf : (serJson (.num n)).length < fuel) (hr : RestOk rest) :
    parseV fuel (serJson (.num n) ++ rest) = some (.num n, rest) := by
  cases fuel with
  | zero =>
    exfalso
    have := List.length_pos.mpr (serJson_ne_nil (.num n))
    omega
  | succ f =>
    rw [serJson, serInt]
    by_cases hneg : n < 0
    · rw [if_pos hneg]
      simp only [List.cons_append]
      have hpn := parseNatChars_roundtrip n.natAbs rest (restOk_head_not_digit hr)
      simp [parseV, hpn, show ¬('-' : Char) = lbrace from by decide]
      rw [abs_of_neg hneg, neg_neg]
    · rw [if_neg hneg]
      rcases hnc : natChars n.toNat with _ | ⟨c0, crest⟩
      · exact absurd hnc (natChars_ne_nil _)
      · have hd : c0.isDigit = true :=
          natChars_all_digits n.toNat c0 (by rw [hnc]; exact List.mem_cons_self _ _)
        have hin : c0 :: (crest ++ rest) = natChars n.toNat ++ rest := by rw [hnc]; simp
        simp only [List.cons_append]
        rw [parseV_cons_digit f c0 (crest ++ rest) hd, hin]
        have hpn := parseNatChars_roundtrip n.toNat rest (restOk_head_not_digit hr)
        have hcast : ((n.toNat : Int)) = n := by omega
        simp [hpn, hcast]

end RustcJa

namespace RustcJa

theorem parseV_cons_lbracket (f : Nat) (X : List Char) :
    parseV (f+1) ('[' :: X) =
      (match X with
       | ']' :: r2 => some (.arr .nil, r2)
       | _ => (parseItems f X).map (fun p => (Json.arr p.1, p.2))) := by
  simp +decide [parseV]

theorem parseV_cons_lbrace (f : Nat) (X : List Char) :
    parseV (f+1) (lbrace :: X) =
      (match X with
       | c2 :: r2 =>
         if c2 = rbrace then some (.obj .nil, r2)
         else (parseMembers f X).map (fun p => (Json.obj p.1, p.2))
       | [] => none) := by
  simp +decide [parseV]

end RustcJa

namespace RustcJa

mutual
/-- `from_str` inverts `to_string` (value case). -/
theorem parseV_ser : ∀ (j : Json) (fuel : Nat) (rest : List Char),
    (serJson j).length < fuel → RestOk rest →
    parseV fuel (serJson j ++ rest) = some (j, rest)
  | .null, fuel, rest, hf, _ => parseV_ser_null fuel rest hf
  | .bool b, fuel, rest, hf, _ => parseV_ser_bool b fuel rest hf
  | .num n, fuel, rest, hf, hr => parseV_ser_num n fuel rest hf hr
  | .str s, fuel, rest, hf, _ => parseV_ser_str s fuel rest hf
  | .arr .nil, fuel, rest, hf, hr => by
    cases fuel with
    | zero => simp [serJson, serList] at hf
    | succ f =>
      rw [serJson, serList]
      simp only [List.nil_append, List.cons_append]
      rw [parseV_cons_lbracket]
      rfl
  | .arr (.cons x tl), fuel, rest, hf, hr => by
    cases fuel with
    | zero => simp [serJson] at hf
    | succ f =>
      rw [serJson]
      simp only [List.cons_append, List.append_assoc, List.nil_append]
      rw [parseV_cons_lbracket]
      rcases hx : serJson x with _ | ⟨cx, rx⟩
      · exact absurd hx (serJson_ne_nil x)
      · have hxne : cx ≠ ']' := by
          intro h
          subst h
          exact absurd hx (serJson_not_rbracket x rx)
        have hY : ∃ Y, serList (JsonList.cons x tl) = cx :: Y := by
          cases tl <;> simp [serList, hx]
        rcases hY with ⟨Y, hY⟩
        rw [hY]
        simp only [List.cons_append]
        split
        · rename_i r2 heq
          exfalso
          injection heq with h1 _
          exact hxne h1
        · rw [show cx :: (Y ++ ']' :: rest) = serList (JsonList.cons x tl) ++ ']' :: rest from
            by rw [hY]; simp]
          rw [parseItems_ser (JsonList.cons x tl) f rest (by simp)
            (by rw [serJson] at hf; simp only [List.length_cons, List.length_append] at hf ⊢; omega)
            hr]
          rfl
  | .obj .nil, fuel, rest, hf, hr => by
    cases fuel with
    | zero => simp [serJson, serFields] at hf
    | succ f =>
      rw [serJson, serFields]
      simp only [List.nil_append, List.cons_append]
      rw [parseV_cons_lbrace]
      simp +decide
  | .obj (.cons k v tl), fuel, rest, hf, hr => by
    cases fuel with
    | zero => simp [serJson] at hf
    | succ f =>
      rw [serJson]
      simp only [List.cons_append, List.append_assoc, List.nil_append]
      rw [parseV_cons_lbrace]
      have hW : ∃ W, serFields (JsonFields.cons k v tl) = '"' :: W := by
        cases tl <;> simp [serFields, serStr]
      rcases hW with ⟨W, hW⟩
      rw [hW]
      simp only [List.cons_append]
      rw [if_neg (by decide)]
      rw [show '"' :: (W ++ rbrace :: rest) = serFields (JsonFields.cons k v tl) ++ rbrace :: rest
        from by rw [hW]; simp]
      rw [parseMembers_ser (JsonFields.cons k v tl) f rest (by simp)
        (by rw [serJson] at hf; simp only [List.length_cons, List.length_append] at hf ⊢; omega)
        hr]
      rfl
/-- `from_str` inverts `to_string` (non-empty array elements). -/
theorem parseItems_ser : ∀ (xs : JsonList) (fuel : Nat) (rest : List Char),
    xs ≠ .nil → (serList xs).length + 1 < fuel → RestOk rest →
    parseItems fuel (serList xs ++ ']' :: rest) = some (xs, rest)
  | .nil, _, _, hne, _, _ => absurd rfl hne
  | .cons x tl, fuel, rest, _, hf, hr => by
    cases fuel with
    | zero => omega
    | succ f =>
      cases tl with
      | nil =>
        rw [serList, parseItems]
        rw [parseV_ser x f (']' :: rest)
          (by simp only [serList, List.length_cons] at hf ⊢; omega)
          (Or.inr (Or.inl rfl))]
        rfl
      | cons y tl' =>
        rw [serList]
        simp only [List.append_assoc, List.cons_append, List.nil_append]
        rw [parseItems]
        have hxpos : 0 < (serJson x).length := List.length_pos.mpr (serJson_ne_nil x)
        rw [parseV_ser x f (',' :: (serList (JsonList.cons y tl') ++ ']' :: rest))
          (by simp only [serList, List.length_cons, List.length_append] at hf ⊢; omega)
          (Or.inl rfl)]
        have h2 := parseItems_ser (JsonList.cons y tl') f rest (by simp)
          (by simp only [serList, List.length_cons, List.length_append] at hf ⊢; omega)
          hr
        simp [h2]
/-- `from_str` inverts `to_string` (non-empty object members). -/
theorem parseMembers_ser : ∀ (fs : JsonFields) (fuel : Nat) (rest : List Char),
    fs ≠ .nil → (serFields fs).length + 1 < fuel → RestOk rest →
    parseMembers fuel (serFields fs ++ rbrace :: rest) = some (fs, rest)
  | .nil, _, _, hne, _, _ => absurd rfl hne
  | .cons k v tl, fuel, rest, _, hf, hr => by
    cases fuel with
    | zero => omega
    | succ f =>
      have hvpos : 0 < (serJson v).length := List.length_pos.mpr (serJson_ne_nil v)
      cases tl with
      | nil =>
        rw [serFields, serStr]
        simp only [List.append_assoc, List.cons_append, List.singleton_append, List.nil_append]
        rw [parseMembers]
        rw [parseStrBody_roundtrip k.data (':' :: (serJson v ++ rbrace :: rest)) _
          (by simp only [List.length_append, List.length_cons]; omega)]
        simp only [string_mk_data]
        rw [parseV_ser v f (rbrace :: rest)
          (by simp only [serFields, serStr, List.length_cons, List.length_append] at hf ⊢; omega)
          (Or.inr (Or.inr rfl))]
        simp +decide
      | cons k2 v2 tl' =>
        rw [serFields, serStr]
        simp only [List.append_assoc, List.cons_append, List.singleton_append, List.nil_append]
        rw [parseMembers]
        rw [parseStrBody_roundtrip k.data
          (':' :: (serJson v ++ ',' :: (serFields (JsonFields.cons k2 v2 tl') ++ rbrace :: rest))) _
          (by simp only [List.length_append, List.length_cons]; omega)]
        simp only [string_mk_data]
        rw [parseV_ser v f (',' :: (serFields (JsonFields.cons k2 v2 tl') ++ rbrace :: rest))
          (by simp only [serFields, serStr, List.length_cons, List.length_append] at hf ⊢; omega)
          (Or.inl rfl)]
        have h2 := parseMembers_ser (JsonFields.cons k2 v2 tl') f rest (by simp)
          (by simp only [serFields, serStr, List.length_cons, List.length_append] at hf ⊢; omega)
          hr
        simp +decide [h2]
end

end RustcJa

namespace RustcJa

/-- `serde_json::from_str ∘ serde_json::to_string` is the identity on
values — the normalization round trip at the end of
`translate_json_message` returns its input. -/
theorem parseJson_serializeJson (j : Json) : parseJson (serializeJson j) = some j := by
  have h := parseV_ser j ((serJson j).length + 1) [] (by omega) trivial
  rw [List.append_nil] at h
  rw [parseJson, serializeJson]
  rw [show (String.mk (serJson j)).data = serJson j from rfl]
  rw [h]

/-! ## Json get/set lemmas -/

/-- List-style induction for `JsonFields` (the mutual recursor has
multiple motives; these lemmas never descend into `Json`). -/
theorem JsonFields.fieldsIndOn {motive : JsonFields → Prop}
    (hnil : motive .nil)
    (hcons : ∀ k v tl, motive tl → motive (.cons k v tl)) : ∀ fs, motive fs
  | .nil => hnil
  | .cons k v tl => hcons k v tl (JsonFields.fieldsIndOn hnil hcons tl)

/-- List-style induction for `JsonList`. -/
theorem JsonList.listIndOn {motive : JsonList → Prop}
    (hnil : motive .nil)
    (hcons : ∀ v tl, motive tl → motive (.cons v tl)) : ∀ xs, motive xs
  | .nil => hnil
  | .cons v tl => hcons v tl (JsonList.listIndOn hnil hcons tl)

theorem getKey_setKey_same (fs : JsonFields) (k : String) (v : Json) :
    getKey (setKey fs k v) k = some v := by
  induction fs using JsonFields.fieldsIndOn with
  | hnil => simp [setKey, getKey]
  | hcons k' w tl ih =>
    rw [setKey]
    split
    · rename_i h
      rw [getKey, if_pos h]
    · rename_i h
      rw [getKey, if_neg h]
      exact ih

theorem getKey_setKey_ne (fs : JsonFields) {k k' : String} (v : Json) (h : k ≠ k') :
    getKey (setKey fs k v) k' = getKey fs k' := by
  induction fs using JsonFields.fieldsIndOn with
  | hnil => simp [setKey, getKey, h]
  | hcons k0 w tl ih =>
    rw [setKey]
    split
    · rename_i h0
      subst h0
      rw [getKey, getKey, if_neg h, if_neg h]
    · rename_i h0
      rw [getKey, getKey]
      split
      · rfl
      · exact ih

theorem setKey_setKey_same (fs : JsonFields) (k : String) (a b : Json) :
    setKey (setKey fs k a) k b = setKey fs k b := by
  induction fs using JsonFields.fieldsIndOn with
  | hnil => simp [setKey]
  | hcons k0 w tl ih =>
    rw [setKey]
    split
    · rename_i h0
      rw [setKey, if_pos h0, setKey, if_pos h0]
    · rename_i h0
      rw [setKey, if_neg h0, setKey, if_neg h0, ih]

theorem setKey_self (fs : JsonFields) (k : String) (v : Json)
    (h : getKey fs k = some v) : setKey fs k v = fs := by
  induction fs using JsonFields.fieldsIndOn with
  | hnil => simp [getKey] at h
  | hcons k0 w tl ih =>
    rw [getKey] at h
    rw [setKey]
    split
    · rename_i h0
      rw [if_pos h0] at h
      injection h with h
      rw [h]
    · rename_i h0
      rw [if_neg h0] at h
      rw [ih h]

theorem setKey_comm (fs : JsonFields) {k k' : String} (v v' : Json) (w : Json)
    (hp : getKey fs k' = some w) (hne : k ≠ k') :
    setKey (setKey fs k v) k' v' = setKey (setKey fs k' v') k v := by
  induction fs using JsonFields.fieldsIndOn with
  | hnil => simp [getKey] at hp
  | hcons k0 u tl ih =>
    rw [getKey] at hp
    by_cases h0 : k0 = k
    · have h0' : ¬k0 = k' := by rw [h0]; exact hne
      rw [setKey, if_pos h0, setKey, if_neg h0', setKey, if_neg h0', setKey, if_pos h0]
    · by_cases h0' : k0 = k'
      · rw [setKey, if_neg h0, setKey, if_pos h0', setKey, if_pos h0', setKey, if_neg h0]
      · rw [if_neg h0'] at hp
        rw [setKey, if_neg h0, setKey, if_neg h0', setKey, if_neg h0', setKey, if_neg h0,
          ih hp]

end RustcJa

namespace RustcJa

theorem get_set_ne (j : Json) {k k' : String} (v : Json) (h : k ≠ k') :
    (j.set k v).get k' = j.get k' := by
  cases j with
  | obj fs => exact getKey_setKey_ne fs v h
  | null => rfl
  | bool b => rfl
  | num n => rfl
  | str s => rfl
  | arr xs => rfl

theorem maskKey_set_ne (j : Json) {k key : String} (X : Json) (h : k ≠ key) :
    maskKey (j.set k X) key = (maskKey j key).set k X := by
  cases j with
  | obj fs =>
    rw [maskKey, maskKey]
    rw [show Json.get (Json.set (.obj fs) k X) key = getKey (setKey fs k X) key from rfl]
    rw [show Json.get (.obj fs) key = getKey fs key from rfl]
    rw [getKey_setKey_ne fs X h]
    rcases hk : getKey fs key with _ | w
    · rfl
    · show Json.obj (setKey (setKey fs k X) key .null) = Json.obj (setKey (setKey fs key .null) k X)
      rw [setKey_comm fs X Json.null w hk h]
  | null => rfl
  | bool b => rfl
  | num n => rfl
  | str s => rfl
  | arr xs => rfl

theorem maskKey_set_same (j : Json) {key : String} (X : Json) {w : Json}
    (hw : j.get key = some w) :
    maskKey (j.set key X) key = maskKey j key := by
  rcases j with _ | b | n | s | xs | fs
  · simp [Json.get] at hw
  · simp [Json.get] at hw
  · simp [Json.get] at hw
  · simp [Json.get] at hw
  · simp [Json.get] at hw
  · rw [show Json.get (.obj fs) key = getKey fs key from rfl] at hw
    rw [maskKey, maskKey]
    rw [show Json.get (Json.set (.obj fs) key X) key = getKey (setKey fs key X) key from rfl]
    rw [show Json.get (.obj fs) key = getKey fs key from rfl]
    rw [getKey_setKey_same fs key X, hw]
    show Json.obj (setKey (setKey fs key X) key .null) = Json.obj (setKey fs key .null)
    rw [setKey_setKey_same]

end RustcJa

namespace RustcJa

theorem get_set_same (j : Json) {k : String} (v : Json) {w : Json} (hw : j.get k = some w) :
    (j.set k v).get k = some v := by
  rcases j with _ | b | n | s | xs | fs
  · simp [Json.get] at hw
  · simp [Json.get] at hw
  · simp [Json.get] at hw
  · simp [Json.get] at hw
  · simp [Json.get] at hw
  · exact getKey_setKey_same fs k v

theorem set_comm (j : Json) {k k' : String} (v v' : Json) {w : Json}
    (hw : j.get k' = some w) (hne : k ≠ k') :
    (j.set k v).set k' v' = (j.set k' v').set k v := by
  rcases j with _ | b | n | s | xs | fs
  · simp [Json.get] at hw
  · simp [Json.get] at hw
  · simp [Json.get] at hw
  · simp [Json.get] at hw
  · simp [Json.get] at hw
  · show Json.obj (setKey (setKey fs k v) k' v') = Json.obj (setKey (setKey fs k' v') k v)
    rw [setKey_comm fs v v' w hw hne]

theorem set_set_same (j : Json) (k : String) (a b : Json) :
    (j.set k a).set k b = j.set k b := by
  rcases j with _ | _ | _ | _ | _ | fs
  · rfl
  · rfl
  · rfl
  · rfl
  · rfl
  · show Json.obj (setKey (setKey fs k a) k b) = Json.obj (setKey fs k b)
    rw [setKey_setKey_same]

theorem set_self (j : Json) {k : String} {v : Json} (hw : j.get k = some v) :
    j.set k v = j := by
  rcases j with _ | b | n | s | xs | fs
  · simp [Json.get] at hw
  · simp [Json.get] at hw
  · simp [Json.get] at hw
  · simp [Json.get] at hw
  · simp [Json.get] at hw
  · show Json.obj (setKey fs k v) = Json.obj fs
    rw [setKey_self fs k v hw]

theorem maskSpansOf_set_ne (j : Json) {k : String} (X : Json) (h : k ≠ "spans") :
    maskSpansOf (j.set k X) = (maskSpansOf j).set k X := by
  rw [maskSpansOf, maskSpansOf, get_set_ne j X h]
  rcases hs : j.get "spans" with _ | v
  · rfl
  · rcases v with _ | b | n | s | sp | fs
    · rfl
    · rfl
    · rfl
    · rfl
    · exact set_comm j X (Json.arr (maskSpanList sp)) hs h
    · rfl

theorem maskSpansOf_set_spans (j : Json) {sp : JsonList} (ns : JsonList)
    (hsp : j.get "spans" = some (.arr sp)) (hm : maskSpanList ns = maskSpanList sp) :
    maskSpansOf (j.set "spans" (.arr ns)) = maskSpansOf j := by
  rw [maskSpansOf, maskSpansOf, get_set_same j (Json.arr ns) hsp, hsp]
  show (j.set "spans" (Json.arr ns)).set "spans" (Json.arr (maskSpanList ns))
      = j.set "spans" (Json.arr (maskSpanList sp))
  rw [set_set_same, hm]

theorem maskChildrenOf_set_ne (j : Json) {k : String} (X : Json) (h : k ≠ "children") :
    maskChildrenOf (j.set k X) = (maskChildrenOf j).set k X := by
  rw [maskChildrenOf, maskChildrenOf, get_set_ne j X h]
  rcases hs : j.get "children" with _ | v
  · rfl
  · rcases v with _ | b | n | s | cs | fs
    · rfl
    · rfl
    · rfl
    · rfl
    · exact set_comm j X (Json.arr (maskChildList cs)) hs h
    · rfl

theorem maskChildrenOf_set_children (j : Json) {cs : JsonList} (ncs : JsonList)
    (hcs : j.get "children" = some (.arr cs)) (hm : maskChildList ncs = maskChildList cs) :
    maskChildrenOf (j.set "children" (.arr ncs)) = maskChildrenOf j := by
  rw [maskChildrenOf, maskChildrenOf, get_set_same j (Json.arr ncs) hcs, hcs]
  show (j.set "children" (Json.arr ncs)).set "children" (Json.arr (maskChildList ncs))
      = j.set "children" (Json.arr (maskChildList cs))
  rw [set_set_same, hm]

/-- `maskKey` only touches `key`: reads at other keys are unchanged. -/
theorem get_maskKey_ne (j : Json) {k key : String} (h : k ≠ key) :
    (maskKey j key).get k = j.get k := by
  rw [maskKey]
  rcases hs : j.get key with _ | v
  · rfl
  · exact get_set_ne j Json.null (Ne.symm h)

theorem get_maskSpansOf_ne (j : Json) {k : String} (h : k ≠ "spans") :
    (maskSpansOf j).get k = j.get k := by
  rw [maskSpansOf]
  rcases hs : j.get "spans" with _ | v
  · rfl
  · rcases v with _ | b | n | s | sp | fs
    · rfl
    · rfl
    · rfl
    · rfl
    · exact get_set_ne j (Json.arr (maskSpanList sp)) (Ne.symm h)
    · rfl

theorem get_maskChildrenOf_ne (j : Json) {k : String} (h : k ≠ "children") :
    (maskChildrenOf j).get k = j.get k := by
  rw [maskChildrenOf]
  rcases hs : j.get "children" with _ | v
  · rfl
  · rcases v with _ | b | n | s | cs | fs
    · rfl
    · rfl
    · rfl
    · rfl
    · exact get_set_ne j (Json.arr (maskChildList cs)) (Ne.symm h)
    · rfl

end RustcJa

namespace RustcJa

/-- Translating span labels does not change the masked span list. -/
theorem maskSpanList_translateSpans (ts : List TranslateEntry) (sp : JsonList) :
    maskSpanList (translateSpans ts sp).1 = maskSpanList sp := by
  induction sp using JsonList.listIndOn with
  | hnil => rfl
  | hcons s tl ih =>
    rw [translateSpans]
    show JsonList.cons (maskKey (translateSpan ts s).1 "label") (maskSpanList (translateSpans ts tl).1)
        = JsonList.cons (maskKey s "label") (maskSpanList tl)
    rw [ih]
    rw [translateSpan]
    rcases hl : s.get "label" with _ | v
    · rfl
    · rcases v with _ | b | n | l | xs | fs
      · rfl
      · rfl
      · rfl
      · show JsonList.cons
            (maskKey (if translate_message l ts ≠ l
              then (s.set "label" (.str (translate_message l ts)), [(l, translate_message l ts)])
              else (s, [])).1 "label") (maskSpanList tl)
            = JsonList.cons (maskKey s "label") (maskSpanList tl)
        by_cases hch : translate_message l ts ≠ l
        · rw [if_pos hch]
          show JsonList.cons (maskKey (s.set "label" (.str (translate_message l ts))) "label") _ = _
          rw [maskKey_set_same s (Json.str (translate_message l ts)) hl]
        · rw [if_neg hch]
      · rfl
      · rfl

/-- The message step does not change the masked record and reads at other
keys are unchanged. -/
theorem maskKey_translateMessageField (ts : List TranslateEntry) (c : Json) :
    maskKey (translateMessageField ts c).1 "message" = maskKey c "message" := by
  rw [translateMessageField]
  rcases hm : c.get "message" with _ | v
  · rfl
  · rcases v with _ | b | n | m | xs | fs
    · rfl
    · rfl
    · rfl
    · show maskKey (if translate_message m ts ≠ m
          then (c.set "message" (.str (translate_message m ts)), [(m, translate_message m ts)])
          else (c, [])).1 "message" = maskKey c "message"
      by_cases hch : translate_message m ts ≠ m
      · rw [if_pos hch]
        exact maskKey_set_same c (Json.str (translate_message m ts)) hm
      · rw [if_neg hch]
    · rfl
    · rfl

theorem get_translateMessageField_ne (ts : List TranslateEntry) (c : Json) {k : String}
    (h : k ≠ "message") :
    (translateMessageField ts c).1.get k = c.get k := by
  rw [translateMessageField]
  rcases hm : c.get "message" with _ | v
  · rfl
  · rcases v with _ | b | n | m | xs | fs
    · rfl
    · rfl
    · rfl
    · show (if translate_message m ts ≠ m
          then (c.set "message" (.str (translate_message m ts)), [(m, translate_message m ts)])
          else (c, [])).1.get k = c.get k
      by_cases hch : translate_message m ts ≠ m
      · rw [if_pos hch]
        exact get_set_ne c (Json.str (translate_message m ts)) (Ne.symm (by simpa using h))
      · rw [if_neg hch]
    · rfl
    · rfl

/-- Translating a child does not change its masked form. -/
theorem mask_translateChild (ts : List TranslateEntry) (c : Json) :
    maskSpansOf (maskKey (translateChild ts c).1 "message")
      = maskSpansOf (maskKey c "message") := by
  rw [translateChild]
  rcases hsp : c.get "spans" with _ | v
  · rw [maskKey_translateMessageField]
  · rcases v with _ | b | n | m | sp | fs
    · rw [maskKey_translateMessageField]
    · rw [maskKey_translateMessageField]
    · rw [maskKey_translateMessageField]
    · rw [maskKey_translateMessageField]
    · show maskSpansOf (maskKey
          ((translateMessageField ts c).1.set "spans" (.arr (translateSpans ts sp).1)) "message")
        = maskSpansOf (maskKey c "message")
      rw [maskKey_set_ne _ _ (by decide)]
      rw [maskKey_translateMessageField]
      exact maskSpansOf_set_spans (maskKey c "message") (translateSpans ts sp).1
        (by rw [get_maskKey_ne c (by decide)]; exact hsp)
        (maskSpanList_translateSpans ts sp)
    · rw [maskKey_translateMessageField]

end RustcJa

namespace RustcJa

/-- Translating children does not change the masked child list. -/
theorem maskChildList_translateChildren (ts : List TranslateEntry) (cs : JsonList) :
    maskChildList (translateChildren ts cs).1 = maskChildList cs := by
  induction cs using JsonList.listIndOn with
  | hnil => rfl
  | hcons c tl ih =>
    rw [translateChildren]
    show JsonList.cons (maskSpansOf (maskKey (translateChild ts c).1 "message"))
        (maskChildList (translateChildren ts tl).1)
      = JsonList.cons (maskSpansOf (maskKey c "message")) (maskChildList tl)
    rw [ih, mask_translateChild]

theorem maskEligible_translateMessageField (ts : List TranslateEntry) (j : Json) :
    maskEligible (translateMessageField ts j).1 = maskEligible j := by
  rw [maskEligible, maskEligible, maskKey_translateMessageField]

theorem maskEligible_set_spans (Y : Json) {sp : JsonList} (ns : JsonList)
    (hsp : Y.get "spans" = some (.arr sp)) (hm : maskSpanList ns = maskSpanList sp) :
    maskEligible (Y.set "spans" (.arr ns)) = maskEligible Y := by
  rw [maskEligible, maskEligible]
  rw [maskKey_set_ne _ _ (by decide)]
  rw [maskSpansOf_set_spans (maskKey Y "message") ns
    (by rw [get_maskKey_ne _ (by decide)]; exact hsp) hm]

theorem maskEligible_set_children (Y : Json) {cs : JsonList} (ncs : JsonList)
    (hcs : Y.get "children" = some (.arr cs)) (hm : maskChildList ncs = maskChildList cs) :
    maskEligible (Y.set "children" (.arr ncs)) = maskEligible Y := by
  rw [maskEligible, maskEligible]
  rw [maskKey_set_ne _ _ (by decide)]
  rw [maskSpansOf_set_ne _ _ (by decide)]
  rw [maskChildrenOf_set_children (maskSpansOf (maskKey Y "message")) ncs
    (by rw [get_maskSpansOf_ne _ (by decide), get_maskKey_ne _ (by decide)]; exact hcs) hm]

theorem maskEligible_set_rendered (x : Json) (R : Json) {w : Json}
    (hw : x.get "rendered" = some w) :
    maskEligible (x.set "rendered" R) = maskEligible x := by
  rw [maskEligible, maskEligible]
  rw [maskKey_set_ne _ _ (by decide)]
  rw [maskSpansOf_set_ne _ _ (by decide)]
  rw [maskChildrenOf_set_ne _ _ (by decide)]
  exact maskKey_set_same _ R (by
    rw [get_maskChildrenOf_ne _ (by decide), get_maskSpansOf_ne _ (by decide),
      get_maskKey_ne _ (by decide)]
    exact hw)

theorem mask_stage2 (ts : List TranslateEntry) (j : Json) :
    maskEligible (match j.get "spans" with
      | some (.arr spans) =>
        ((translateMessageField ts j).1.set "spans" (.arr (translateSpans ts spans).1),
          (translateMessageField ts j).2 ++ (translateSpans ts spans).2)
      | _ => translateMessageField ts j).1 = maskEligible j := by
  rcases hsp : j.get "spans" with _ | v
  · exact maskEligible_translateMessageField ts j
  · rcases v with _ | b | n | m | sp | fs
    · exact maskEligible_translateMessageField ts j
    · exact maskEligible_translateMessageField ts j
    · exact maskEligible_translateMessageField ts j
    · exact maskEligible_translateMessageField ts j
    · rw [maskEligible_set_spans _ _
        (by rw [get_translateMessageField_ne ts j (by decide)]; exact hsp)
        (maskSpanList_translateSpans ts sp)]
      exact maskEligible_translateMessageField ts j
    · exact maskEligible_translateMessageField ts j

theorem get_stage2_ne (ts : List TranslateEntry) (j : Json) {k : String}
    (h1 : k ≠ "message") (h2 : k ≠ "spans") :
    (match j.get "spans" with
      | some (.arr spans) =>
        ((translateMessageField ts j).1.set "spans" (.arr (translateSpans ts spans).1),
          (translateMessageField ts j).2 ++ (translateSpans ts spans).2)
      | _ => translateMessageField ts j).1.get k = j.get k := by
  rcases hsp : j.get "spans" with _ | v
  · exact get_translateMessageField_ne ts j h1
  · rcases v with _ | b | n | m | sp | fs
    · exact get_translateMessageField_ne ts j h1
    · exact get_translateMessageField_ne ts j h1
    · exact get_translateMessageField_ne ts j h1
    · exact get_translateMessageField_ne ts j h1
    · rw [get_set_ne _ _ (Ne.symm h2)]
      exact get_translateMessageField_ne ts j h1
    · exact get_translateMessageField_ne ts j h1

theorem mask_translateCore (ts : List TranslateEntry) (j : Json) :
    maskEligible (translateCore ts j).1 = maskEligible j := by
  rw [translateCore]
  rcases hch : j.get "children" with _ | v
  · exact mask_stage2 ts j
  · rcases v with _ | b | n | m | cs | fs
    · exact mask_stage2 ts j
    · exact mask_stage2 ts j
    · exact mask_stage2 ts j
    · exact mask_stage2 ts j
    · show maskEligible ((match j.get "spans" with
        | some (.arr spans) =>
          ((translateMessageField ts j).1.set "spans" (.arr (translateSpans ts spans).1),
            (translateMessageField ts j).2 ++ (translateSpans ts spans).2)
        | _ => translateMessageField ts j).1.set "children"
          (.arr (translateChildren ts cs).1)) = maskEligible j
      rw [maskEligible_set_children _ _
        (by rw [get_stage2_ne ts j (by decide) (by decide)]; exact hch)
        (maskChildList_translateChildren ts cs)]
      exact mask_stage2 ts j
    · exact mask_stage2 ts j

end RustcJa

namespace RustcJa

/-- The final `to_string`/`from_str` normalization of
`translate_json_message` is the identity, so the function returns the
reconciled record itself. -/
theorem translate_json_message_eq (j : Json) (ts : List TranslateEntry) :
    translate_json_message j ts =
      (match (translateCore ts j).1.get "rendered" with
       | some (.str r) =>
         (translateCore ts j).1.set "rendered" (.str (applyLog (translateCore ts j).2 r))
       | _ => (translateCore ts j).1) := by
  rw [translate_json_message]
  rw [parseJson_serializeJson]

/-- C5: tree translation preserves the record's structure exactly — after
erasing the values at the five eligible positions (`message`,
`spans[].label`, `children[].message`, `children[].spans[].label`,
`rendered`) with `maskEligible`, input and output are equal, so field
presence, array lengths and order, nesting, and every other value are
unchanged. -/
theorem translate_json_message_frame (j : Json) (ts : List TranslateEntry) :
    maskEligible (translate_json_message j ts) = maskEligible j := by
  rw [translate_json_message_eq]
  rcases hr : (translateCore ts j).1.get "rendered" with _ | v
  · exact mask_translateCore ts j
  · rcases v with _ | b | n | r | xs | fs
    · exact mask_translateCore ts j
    · exact mask_translateCore ts j
    · exact mask_translateCore ts j
    · rw [maskEligible_set_rendered _ _ hr]
      exact mask_translateCore ts j
    · exact mask_translateCore ts j
    · exact mask_translateCore ts j

end RustcJa

namespace RustcJa

/-! ## C4: the substitution log and the rendered reconciliation -/

theorem translateMessageField_snd (ts : List TranslateEntry) (c : Json) :
    (translateMessageField ts c).2 =
      (match c.getStr "message" with
       | some m => logOfString ts m
       | none => []) := by
  rw [translateMessageField, Json.getStr]
  rcases hm : c.get "message" with _ | v
  · rfl
  · rcases v with _ | b | n | m | xs | fs
    · rfl
    · rfl
    · rfl
    · show (if translate_message m ts ≠ m
          then (c.set "message" (.str (translate_message m ts)), [(m, translate_message m ts)])
          else (c, [])).2 = logOfString ts m
      rw [logOfString]
      by_cases hch : translate_message m ts ≠ m
      · rw [if_pos hch, if_pos hch]
      · rw [if_neg hch, if_neg hch]
    · rfl
    · rfl

theorem translateSpans_snd (ts : List TranslateEntry) (sp : JsonList) :
    (translateSpans ts sp).2 = spanLogs ts sp := by
  induction sp using JsonList.listIndOn with
  | hnil => rfl
  | hcons s tl ih =>
    rw [translateSpans, spanLogs]
    show (translateSpan ts s).2 ++ (translateSpans ts tl).2 = _
    rw [ih]
    congr 1
    rw [translateSpan, Json.getStr]
    rcases hl : s.get "label" with _ | v
    · rfl
    · rcases v with _ | b | n | l | xs | fs
      · rfl
      · rfl
      · rfl
      · show (if translate_message l ts ≠ l
            then (s.set "label" (.str (translate_message l ts)), [(l, translate_message l ts)])
            else (s, [])).2 = logOfString ts l
        rw [logOfString]
        by_cases hch : translate_message l ts ≠ l
        · rw [if_pos hch, if_pos hch]
        · rw [if_neg hch, if_neg hch]
      · rfl
      · rfl

theorem translateChild_snd (ts : List TranslateEntry) (c : Json) :
    (translateChild ts c).2 = childLog ts c := by
  rw [translateChild, childLog]
  rcases hsp : c.get "spans" with _ | v
  · rw [translateMessageField_snd]
    simp
  · rcases v with _ | b | n | m | sp | fs
    · rw [translateMessageField_snd]; simp
    · rw [translateMessageField_snd]; simp
    · rw [translateMessageField_snd]; simp
    · rw [translateMessageField_snd]; simp
    · show (translateMessageField ts c).2 ++ (translateSpans ts sp).2 = _
      rw [translateMessageField_snd, translateSpans_snd]
    · rw [translateMessageField_snd]; simp

theorem translateChildren_snd (ts : List TranslateEntry) (cs : JsonList) :
    (translateChildren ts cs).2 = childrenLogs ts cs := by
  induction cs using JsonList.listIndOn with
  | hnil => rfl
  | hcons c tl ih =>
    rw [translateChildren, childrenLogs]
    show (translateChild ts c).2 ++ (translateChildren ts tl).2 = _
    rw [ih, translateChild_snd]

theorem stage2_snd (ts : List TranslateEntry) (j : Json) :
    (match j.get "spans" with
      | some (.arr spans) =>
        ((translateMessageField ts j).1.set "spans" (.arr (translateSpans ts spans).1),
          (translateMessageField ts j).2 ++ (translateSpans ts spans).2)
      | _ => translateMessageField ts j).2
    = (match j.getStr "message" with
       | some m => logOfString ts m
       | none => []) ++
      (match j.get "spans" with
       | some (.arr sp) => spanLogs ts sp
       | _ => []) := by
  rcases hsp : j.get "spans" with _ | v
  · rw [translateMessageField_snd]
    simp
  · rcases v with _ | b | n | m | sp | fs
    · rw [translateMessageField_snd]; simp
    · rw [translateMessageField_snd]; simp
    · rw [translateMessageField_snd]; simp
    · rw [translateMessageField_snd]; simp
    · show (translateMessageField ts j).2 ++ (translateSpans ts sp).2 = _
      rw [translateMessageField_snd, translateSpans_snd]
    · rw [translateMessageField_snd]; simp

theorem translateCore_snd (ts : List TranslateEntry) (j : Json) :
    (translateCore ts j).2 = collectLogSpec ts j := by
  rw [translateCore, collectLogSpec]
  rcases hch : j.get "children" with _ | v
  · rw [stage2_snd]
    simp
  · rcases v with _ | b | n | m | cs | fs
    · rw [stage2_snd]; simp
    · rw [stage2_snd]; simp
    · rw [stage2_snd]; simp
    · rw [stage2_snd]; simp
    · show (match j.get "spans" with
        | some (.arr spans) =>
          ((translateMessageField ts j).1.set "spans" (.arr (translateSpans ts spans).1),
            (translateMessageField ts j).2 ++ (translateSpans ts spans).2)
        | _ => translateMessageField ts j).2 ++ (translateChildren ts cs).2 = _
      rw [stage2_snd, translateChildren_snd]
    · rw [stage2_snd]; simp

end RustcJa

namespace RustcJa

theorem get_translateCore_ne (ts : List TranslateEntry) (j : Json) {k : String}
    (h1 : k ≠ "message") (h2 : k ≠ "spans") (h3 : k ≠ "children") :
    (translateCore ts j).1.get k = j.get k := by
  rw [translateCore]
  rcases hch : j.get "children" with _ | v
  · exact get_stage2_ne ts j h1 h2
  · rcases v with _ | b | n | m | cs | fs
    · exact get_stage2_ne ts j h1 h2
    · exact get_stage2_ne ts j h1 h2
    · exact get_stage2_ne ts j h1 h2
    · exact get_stage2_ne ts j h1 h2
    · show ((match j.get "spans" with
        | some (.arr spans) =>
          ((translateMessageField ts j).1.set "spans" (.arr (translateSpans ts spans).1),
            (translateMessageField ts j).2 ++ (translateSpans ts spans).2)
        | _ => translateMessageField ts j).1.set "children"
          (.arr (translateChildren ts cs).1)).get k = j.get k
      rw [get_set_ne _ _ (Ne.symm h3)]
      exact get_stage2_ne ts j h1 h2
    · exact get_stage2_ne ts j h1 h2

/-- Every logged pair records an actual change. -/
theorem logOfString_ne (ts : List TranslateEntry) (s : String) :
    ∀ p ∈ logOfString ts s, p.1 ≠ p.2 := by
  intro p hp
  rw [logOfString] at hp
  split at hp
  · rename_i hch
    simp at hp
    subst hp
    exact fun h => hch h.symm
  · simp at hp

theorem spanLogs_ne (ts : List TranslateEntry) (sp : JsonList) :
    ∀ p ∈ spanLogs ts sp, p.1 ≠ p.2 := by
  induction sp using JsonList.listIndOn with
  | hnil => intro p hp; simp [spanLogs] at hp
  | hcons s tl ih =>
    intro p hp
    rw [spanLogs] at hp
    rcases List.mem_append.mp hp with h | h
    · rcases hl : s.getStr "label" with _ | l
      · rw [hl] at h; simp at h
      · rw [hl] at h; exact logOfString_ne ts l p h
    · exact ih p h

theorem childrenLogs_ne (ts : List TranslateEntry) (cs : JsonList) :
    ∀ p ∈ childrenLogs ts cs, p.1 ≠ p.2 := by
  induction cs using JsonList.listIndOn with
  | hnil => intro p hp; simp [childrenLogs] at hp
  | hcons c tl ih =>
    intro p hp
    rw [childrenLogs] at hp
    rcases List.mem_append.mp hp with h | h
    · rw [childLog] at h
      rcases List.mem_append.mp h with h2 | h2
      · rcases hm : c.getStr "message" with _ | m
        · rw [hm] at h2; simp at h2
        · rw [hm] at h2; exact logOfString_ne ts m p h2
      · rcases hsp : c.get "spans" with _ | v
        · rw [hsp] at h2; simp at h2
        · rcases v with _ | b | n | m | sp | fs <;> rw [hsp] at h2
          · simp at h2
          · simp at h2
          · simp at h2
          · simp at h2
          · exact spanLogs_ne ts sp p h2
          · simp at h2
    · exact ih p h

theorem collectLogSpec_ne (ts : List TranslateEntry) (j : Json) :
    ∀ p ∈ collectLogSpec ts j, p.1 ≠ p.2 := by
  intro p hp
  rw [collectLogSpec] at hp
  rcases List.mem_append.mp hp with h | h
  · rcases List.mem_append.mp h with h2 | h2
    · rcases hm : j.getStr "message" with _ | m
      · rw [hm] at h2; simp at h2
      · rw [hm] at h2; exact logOfString_ne ts m p h2
    · rcases hsp : j.get "spans" with _ | v
      · rw [hsp] at h2; simp at h2
      · rcases v with _ | b | n | m | sp | fs <;> rw [hsp] at h2
        · simp at h2
        · simp at h2
        · simp at h2
        · simp at h2
        · exact spanLogs_ne ts sp p h2
        · simp at h2
  · rcases hch : j.get "children" with _ | v
    · rw [hch] at h; simp at h
    · rcases v with _ | b | n | m | cs | fs <;> rw [hch] at h
      · simp at h
      · simp at h
      · simp at h
      · simp at h
      · exact childrenLogs_ne ts cs p h
      · simp at h

end RustcJa

namespace RustcJa

/-- C4: when the record has a top-level string `rendered`, the new value
is the fold of literal `str::replace` over the logged (original,
translated) pairs in log order, skipping empty or identity originals; and
when the log is the single pair (A, B) with A a nonempty substring of
`rendered`, the reconciled `rendered` contains B.  (The unqualified
containment consequence fails for longer logs — see the
counterexample.) -/
theorem rendered_reconciliation (j : Json) (ts : List TranslateEntry) (r0 : String)
    (hr : j.get "rendered" = some (.str r0)) :
    (translate_json_message j ts).get "rendered"
      = some (.str (applyLog (collectLogSpec ts j) r0))
    ∧ ∀ A B, collectLogSpec ts j = [(A, B)] → A ≠ "" → A.data <:+: r0.data →
        B.data <:+: (applyLog (collectLogSpec ts j) r0).data := by
  constructor
  · rw [translate_json_message_eq]
    have hcore : (translateCore ts j).1.get "rendered" = some (.str r0) := by
      rw [get_translateCore_ne ts j (by decide) (by decide) (by decide)]
      exact hr
    rw [hcore]
    rw [get_set_same _ _ hcore]
    rw [translateCore_snd]
  · intro A B hlog hA hinf
    have hAB : A ≠ B := by
      have := collectLogSpec_ne ts j (A, B) (by rw [hlog]; exact List.mem_cons_self _ _)
      simpa using this
    rw [hlog]
    rw [applyLog, List.foldl_cons, List.foldl_nil, if_pos ⟨hA, hAB⟩]
    have hdata : A.data ≠ [] := by
      intro h
      exact hA (String.ext h)
    rw [rustReplace, if_neg hdata]
    exact infix_replChars A.data B.data hdata r0.data.length r0.data le_rfl hinf

end RustcJa

namespace RustcJa

/-! ## C8: untranslated records pass through byte-for-byte -/

theorem translateSpans_id (ts : List TranslateEntry) (sp : JsonList)
    (h : ∀ l ∈ eligibleStrings.spanLabels sp, translate_message l ts = l) :
    translateSpans ts sp = (sp, []) := by
  induction sp using JsonList.listIndOn with
  | hnil => rfl
  | hcons s tl ih =>
    rw [translateSpans]
    have hs : translateSpan ts s = (s, []) := by
      rw [translateSpan]
      rcases hl : s.get "label" with _ | v
      · rfl
      · rcases v with _ | b | n | l | xs | fs
        · rfl
        · rfl
        · rfl
        · have hl2 : translate_message l ts = l := h l (by
            rw [eligibleStrings.spanLabels, Json.getStr, hl]
            exact List.mem_append.mpr (Or.inl (List.mem_singleton.mpr rfl)))
          show (if translate_message l ts ≠ l
              then (s.set "label" (.str (translate_message l ts)), [(l, translate_message l ts)])
              else (s, [])) = (s, [])
          rw [if_neg (by rw [hl2]; exact fun hh => hh rfl)]
        · rfl
        · rfl
    have htl : translateSpans ts tl = (tl, []) := ih (fun l hl => h l (by
      rw [eligibleStrings.spanLabels]
      exact List.mem_append.mpr (Or.inr hl)))
    rw [hs, htl]
    rfl

theorem translateMessageField_id (ts : List TranslateEntry) (c : Json)
    (h : ∀ m, c.getStr "message" = some m → translate_message m ts = m) :
    translateMessageField ts c = (c, []) := by
  rw [translateMessageField]
  rcases hm : c.get "message" with _ | v
  · rfl
  · rcases v with _ | b | n | m | xs | fs
    · rfl
    · rfl
    · rfl
    · have hm2 : translate_message m ts = m := h m (by rw [Json.getStr, hm])
      show (if translate_message m ts ≠ m
          then (c.set "message" (.str (translate_message m ts)), [(m, translate_message m ts)])
          else (c, [])) = (c, [])
      rw [if_neg (by rw [hm2]; exact fun hh => hh rfl)]
    · rfl
    · rfl

theorem translateChild_id (ts : List TranslateEntry) (c : Json)
    (hm : ∀ m, c.getStr "message" = some m → translate_message m ts = m)
    (hsp : ∀ sp, c.get "spans" = some (.arr sp) →
      ∀ l ∈ eligibleStrings.spanLabels sp, translate_message l ts = l) :
    translateChild ts c = (c, []) := by
  rw [translateChild, translateMessageField_id ts c hm]
  rcases hs : c.get "spans" with _ | v
  · rfl
  · rcases v with _ | b | n | m | sp | fs
    · rfl
    · rfl
    · rfl
    · rfl
    · show ((c, ([] : List (String × String))).1.set "spans"
          (.arr (translateSpans ts sp).1),
          (c, ([] : List (String × String))).2 ++ (translateSpans ts sp).2) = (c, [])
      rw [translateSpans_id ts sp (hsp sp hs)]
      show (c.set "spans" (.arr sp), [] ++ ([] : List (String × String))) = (c, [])
      rw [set_self c hs]
      rfl
    · rfl

theorem translateChildren_id (ts : List TranslateEntry) (cs : JsonList)
    (h : ∀ l ∈ eligibleStrings.childrenStrings cs, translate_message l ts = l) :
    translateChildren ts cs = (cs, []) := by
  induction cs using JsonList.listIndOn with
  | hnil => rfl
  | hcons c tl ih =>
    rw [translateChildren]
    have hc : translateChild ts c = (c, []) := by
      apply translateChild_id
      · intro m hm
        apply h
        rw [eligibleStrings.childrenStrings, hm]
        exact List.mem_append.mpr (Or.inl (List.mem_append.mpr (Or.inl
          (List.mem_singleton.mpr rfl))))
      · intro sp hsp l hl
        apply h
        rw [eligibleStrings.childrenStrings, hsp]
        exact List.mem_append.mpr (Or.inl (List.mem_append.mpr (Or.inr hl)))

    have htl : translateChildren ts tl = (tl, []) := ih (fun l hl => h l (by
      rw [eligibleStrings.childrenStrings]
      exact List.mem_append.mpr (Or.inr hl)))
    rw [hc, htl]
    rfl

theorem translateCore_id (ts : List TranslateEntry) (j : Json)
    (h : ∀ s ∈ eligibleStrings j, translate_message s ts = s) :
    translateCore ts j = (j, []) := by
  have h1 : translateMessageField ts j = (j, []) := by
    apply translateMessageField_id
    intro m hm
    apply h
    rw [eligibleStrings, hm]
    exact List.mem_append.mpr (Or.inl (List.mem_append.mpr (Or.inl
      (List.mem_singleton.mpr rfl))))
  rw [translateCore, h1]
  have hstage2 : (match j.get "spans" with
      | some (.arr spans) =>
        (((j, ([] : List (String × String))).1.set "spans" (.arr (translateSpans ts spans).1)),
          ((j, ([] : List (String × String))).2 ++ (translateSpans ts spans).2))
      | _ => (j, ([] : List (String × String)))) = (j, []) := by
    rcases hs : j.get "spans" with _ | v
    · rfl
    · rcases v with _ | b | n | m | sp | fs
      · rfl
      · rfl
      · rfl
      · rfl
      · have hsp : translateSpans ts sp = (sp, []) := by
          apply translateSpans_id
          intro l hl
          apply h
          rw [eligibleStrings, hs]
          exact List.mem_append.mpr (Or.inl (List.mem_append.mpr (Or.inr hl)))
        show ((j, ([] : List (String × String))).1.set "spans" (.arr (translateSpans ts sp).1),
          (j, ([] : List (String × String))).2 ++ (translateSpans ts sp).2) = (j, [])
        rw [hsp]
        show (j.set "spans" (.arr sp), [] ++ ([] : List (String × String))) = (j, [])
        rw [set_self j hs]
        rfl
      · rfl
  rw [hstage2]
  rcases hc : j.get "children" with _ | v
  · rfl
  · rcases v with _ | b | n | m | cs | fs
    · rfl
    · rfl
    · rfl
    · rfl
    · have hcs : translateChildren ts cs = (cs, []) := by
        apply translateChildren_id
        intro l hl
        apply h
        rw [eligibleStrings, hc]
        exact List.mem_append.mpr (Or.inr hl)
      show ((j, ([] : List (String × String))).1.set "children" (.arr (translateChildren ts cs).1),
        (j, ([] : List (String × String))).2 ++ (translateChildren ts cs).2) = (j, [])
      rw [hcs]
      show (j.set "children" (.arr cs), [] ++ ([] : List (String × String))) = (j, [])
      rw [set_self j hc]
      rfl
    · rfl

theorem translate_json_message_id (j : Json) (ts : List TranslateEntry)
    (h : ∀ s ∈ eligibleStrings j, translate_message s ts = s) :
    translate_json_message j ts = j := by
  rw [translate_json_message_eq, translateCore_id ts j h]
  rcases hr : (j, ([] : List (String × String))).1.get "rendered" with _ | v
  · exact rfl
  · rcases v with _ | b | n | r | xs | fs
    · rfl
    · rfl
    · rfl
    · show j.set "rendered" (.str (applyLog [] r)) = j
      exact set_self j hr
    · rfl
    · rfl

end RustcJa

namespace RustcJa

theorem natChars_no_newline (m : Nat) : '\n' ∉ natChars m := by
  intro hmem
  have := natChars_all_digits m '\n' hmem
  simp at this

theorem hexDigitChar_ne_newline : ∀ n, n < 16 → hexDigitChar n ≠ '\n' := by decide

theorem escChar_no_newline (c : Char) : '\n' ∉ escChar c := by
  rw [escChar]
  split
  · decide
  · split
    · decide
    · split
      · split
        · decide
        · split
          · decide
          · split
            · decide
            · split
              · decide
              · split
                · decide
                · have h5 : hexDigitChar (c.toNat / 16) ≠ '\n' :=
                    hexDigitChar_ne_newline _ (by omega)
                  have h6 : hexDigitChar (c.toNat % 16) ≠ '\n' :=
                    hexDigitChar_ne_newline _ (by omega)
                  intro hmem
                  simp only [List.mem_cons, List.not_mem_nil, or_false] at hmem
                  rcases hmem with h | h | h | h | h | h
                  · exact absurd h (by decide)
                  · exact absurd h (by decide)
                  · exact absurd h (by decide)
                  · exact absurd h (by decide)
                  · exact h5 h.symm
                  · exact h6 h.symm
      · rename_i h1 h2 h3
        intro hmem
        simp at hmem
        subst hmem
        exact h3 (by decide)

end RustcJa

namespace RustcJa

theorem serStr_no_newline (s : String) : '\n' ∉ serStr s := by
  rw [serStr]
  intro hmem
  rcases List.mem_cons.mp hmem with h | h
  · exact absurd h (by decide)
  · rcases List.mem_append.mp h with h | h
    · rcases List.mem_flatMap.mp h with ⟨c, _, hc⟩
      exact escChar_no_newline c hc
    · exact absurd (List.mem_singleton.mp h) (by decide)

theorem serInt_no_newline (n : Int) : '\n' ∉ serInt n := by
  rw [serInt]
  split
  · intro hmem
    rcases List.mem_cons.mp hmem with h | h
    · exact absurd h (by decide)
    · exact natChars_no_newline _ h
  · exact natChars_no_newline _

mutual
theorem serJson_no_newline : ∀ j : Json, '\n' ∉ serJson j
  | .null => by decide
  | .bool b => by cases b <;> decide
  | .num n => by simp only [serJson]; exact serInt_no_newline n
  | .str s => by simp only [serJson]; exact serStr_no_newline s
  | .arr xs => by
    simp only [serJson]
    intro hmem
    rcases List.mem_cons.mp hmem with h | h
    · exact absurd h (by decide)
    · rcases List.mem_append.mp h with h | h
      · exact serList_no_newline xs h
      · exact absurd (List.mem_singleton.mp h) (by decide)
  | .obj fs => by
    simp only [serJson]
    intro hmem
    rcases List.mem_cons.mp hmem with h | h
    · exact absurd h (by decide)
    · rcases List.mem_append.mp h with h | h
      · exact serFields_no_newline fs h
      · exact absurd (List.mem_singleton.mp h) (by decide)

theorem serList_no_newline : ∀ xs : JsonList, '\n' ∉ serList xs
  | .nil => by simp only [serList]; exact List.not_mem_nil _
  | .cons x .nil => by simp only [serList]; exact serJson_no_newline x
  | .cons x (.cons y tl) => by
    simp only [serList]
    intro hmem
    rcases List.mem_append.mp hmem with h | h
    · exact serJson_no_newline x h
    · rcases List.mem_cons.mp h with h | h
      · exact absurd h (by decide)
      · exact serList_no_newline (.cons y tl) h

theorem serFields_no_newline : ∀ fs : JsonFields, '\n' ∉ serFields fs
  | .nil => by simp only [serFields]; exact List.not_mem_nil _
  | .cons k v .nil => by
    simp only [serFields]
    intro hmem
    rcases List.mem_append.mp hmem with h | h
    · exact serStr_no_newline k h
    · rcases List.mem_cons.mp h with h | h
      · exact absurd h (by decide)
      · exact serJson_no_newline v h
  | .cons k v (.cons k2 v2 tl) => by
    simp only [serFields]
    intro hmem
    rcases List.mem_append.mp hmem with h | h
    · rcases List.mem_append.mp h with h | h
      · exact serStr_no_newline k h
      · rcases List.mem_cons.mp h with h | h
        · exact absurd h (by decide)
        · exact serJson_no_newline v h
    · rcases List.mem_cons.mp h with h | h
      · exact absurd h (by decide)
      · exact serFields_no_newline (.cons k2 v2 tl) h
end

theorem rustLines_single (s : String) (hne : s.data ≠ []) (hn : '\n' ∉ s.data) :
    rustLines s = [s] := by
  have hsplit : s.data.splitOn '\n' = [s.data] :=
    List.splitOnP_eq_single _ _ (by
      intro x hx
      simp only [beq_iff_eq]
      intro h
      exact hn (h ▸ hx))
  rw [rustLines]
  simp only [hsplit, List.dropLast_single, List.map_nil, List.getLast?_singleton]
  rw [if_neg hne]
  simp [string_mk_data]

theorem mapM'_none {α β : Type} (f : α → Option β) :
    ∀ l : List α, (∃ x ∈ l, f x = none) → l.mapM' f = none
  | [], ⟨x, hx, _⟩ => absurd hx (List.not_mem_nil x)
  | a :: tl, ⟨x, hx, hfx⟩ => by
    rcases List.mem_cons.mp hx with h | h
    · subst h
      simp [List.mapM', hfx]
    · have htl := mapM'_none f tl ⟨x, h, hfx⟩
      cases hfa : f a <;> simp [List.mapM', hfa, htl]

theorem mapM_none {α β : Type} (f : α → Option β) (l : List α)
    (h : ∃ x ∈ l, f x = none) : l.mapM f = none := by
  rw [← List.mapM'_eq_mapM]
  exact mapM'_none f l h

/-- C9: if the stderr bytes are not valid UTF-8, or some line fails to
parse as JSON, the conversion returns the original bytes unchanged. -/
theorem malformed_input_passthrough (ts : List TranslateEntry) (data : List UInt8)
    (h : ∀ cs, utf8Decode data = some cs →
        ∃ l ∈ rustLines (String.mk cs), parseJson l = none) :
    convert_json_error_format ts data = data := by
  rw [convert_json_error_format]
  cases hdec : utf8Decode data with
  | none => rfl
  | some cs =>
    rcases h cs hdec with ⟨l, hl, hpl⟩
    have hm := mapM_none
      (fun line => (parseJson line).map (fun j => serializeJson (convert_json_error_line ts j)))
      (rustLines (String.mk cs)) ⟨l, hl, by simp [hpl]⟩
    show (match (rustLines (String.mk cs)).mapM
        (fun line => (parseJson line).map (fun j => serializeJson (convert_json_error_line ts j))) with
      | none => data
      | some outLines => utf8Encode (String.intercalate "\n" outLines).data) = data
    rw [hm]

theorem malformed_input_witness :
    convert_json_error_format [] [UInt8.ofNat 123] = [UInt8.ofNat 123] :=
  malformed_input_passthrough [] [UInt8.ofNat 123] (by
    intro cs hcs
    have hval : utf8Decode [UInt8.ofNat 123] = some [Char.ofNat 123] := rfl
    rw [hval] at hcs
    cases hcs
    exact ⟨String.mk [Char.ofNat 123], by decide, rfl⟩)

/-- C8: a diagnostic line none of whose eligible text fields matches any
phrase passes through the converter byte-for-byte, `rendered` included. -/
theorem untranslated_line_passthrough (ts : List TranslateEntry) (j : Json)
    (hdec : utf8Decode (utf8Encode (serializeJson j).data) = some (serializeJson j).data)
    (hnm : ∀ s ∈ eligibleStrings j, translate_message s ts = s) :
    convert_json_error_format ts (utf8Encode (serializeJson j).data)
      = utf8Encode (serializeJson j).data := by
  have hline : convert_json_error_line ts j = j := by
    rw [convert_json_error_line]
    cases hmt : j.get "$message_type" with
    | none => rfl
    | some v =>
      cases v with
      | str mt =>
        show (if mt = "diagnostic" then translate_json_message j ts else j) = j
        split
        · exact translate_json_message_id j ts hnm
        · rfl
      | null => rfl
      | bool b => rfl
      | num n => rfl
      | arr xs => rfl
      | obj fs => rfl
  have hlines : rustLines (serializeJson j) = [serializeJson j] :=
    rustLines_single _ (serJson_ne_nil j) (serJson_no_newline j)
  have hmap : ([serializeJson j]).mapM
      (fun line => (parseJson line).map (fun v => serializeJson (convert_json_error_line ts v)))
      = some [serializeJson j] := by
    rw [← List.mapM'_eq_mapM]
    simp [List.mapM', parseJson_serializeJson, hline]
  rw [convert_json_error_format, hdec]
  show (match (rustLines (serializeJson j)).mapM
      (fun line => (parseJson line).map (fun v => serializeJson (convert_json_error_line ts v))) with
    | none => utf8Encode (serializeJson j).data
    | some outLines => utf8Encode (String.intercalate "\n" outLines).data)
    = utf8Encode (serializeJson j).data
  rw [hlines, hmap]
  rfl

theorem untranslated_line_witness :
    convert_json_error_format [⟨"zzz", "ZZZ"⟩]
        (utf8Encode (serializeJson (.obj (jFields
          [("$message_type", .str "diagnostic"), ("message", .str "hi")]))).data)
      = utf8Encode (serializeJson (.obj (jFields
          [("$message_type", .str "diagnostic"), ("message", .str "hi")]))).data :=
  untranslated_line_passthrough [⟨"zzz", "ZZZ"⟩]
    (.obj (jFields [("$message_type", .str "diagnostic"), ("message", .str "hi")]))
    rfl (by decide)

theorem rendered_consistency_counterexample :
    ((translate_json_message
        (.obj (jFields [("message", .str "aa"),
          ("spans", .arr (jList [.obj (jFields [("label", .str "b")])])),
          ("rendered", .str "aa")]))
        [⟨"aa", "bb"⟩, ⟨"b", "c"⟩]).getStr "message" = some "bb")
    ∧ ((translate_json_message
        (.obj (jFields [("message", .str "aa"),
          ("spans", .arr (jList [.obj (jFields [("label", .str "b")])])),
          ("rendered", .str "aa")]))
        [⟨"aa", "bb"⟩, ⟨"b", "c"⟩]).getStr "rendered" = some "cc")
    ∧ ¬ ("bb".data <:+: "cc".data) :=
  ⟨rfl, rfl, by decide⟩

theorem rendered_reconciliation_witness :
    ((translate_json_message (.obj (jFields [("message", .str "aa"), ("rendered", .str "aa!")]))
        [⟨"aa", "bb"⟩]).get "rendered" = some (.str "bb!"))
    ∧ "bb".data <:+: "bb!".data := by
  have h := rendered_reconciliation
    (.obj (jFields [("message", .str "aa"), ("rendered", .str "aa!")])) [⟨"aa", "bb"⟩] "aa!" rfl
  refine ⟨h.1, ?_⟩
  have h2 := h.2 "aa" "bb" rfl (by decide) (by decide)
  exact h2

end RustcJa
